import Mathlib

/-!
Verification of the `virtualboy` virtual-scrolling library.

The development shallowly embeds the three core components of the source:

* `KDTree` (src/kdTree.ts): a 2D alternating-axis search tree over item
  rectangles with insert / remove / range query / point query;
* the scroll coordinate engine (`Virtualboy.handleScroll` and the scroll
  restoration performed by `Virtualboy.remeasure`);
* the lifecycle manager (`Virtualboy`): tracked-item map, visibility set,
  element add/remove interception, visibility refresh, remeasure, destroy.

Coordinates are modelled as rationals (the source uses JS numbers; every
computation involved is field arithmetic and comparisons, which agree with
exact rational arithmetic on rational inputs).
-/

namespace Virtualboy

/-- `Rect` from src/types.ts: an axis-aligned box `{x, y, width, height}`. -/
structure Rect where
  x : ℚ
  y : ℚ
  width : ℚ
  height : ℚ
deriving DecidableEq

/-- The part of a `VirtualElement` that the `KDTree` reads: its `id` and its
virtual rectangle.  The host node reference is irrelevant to the tree. -/
structure Elem where
  id : String
  rect : Rect
deriving DecidableEq

/-- `node.element.rect[axis === 0 ? 'x' : 'y']`: the coordinate of an element
on a given axis (0 = x, anything else = y), as used throughout kdTree.ts. -/
def coordOf (e : Elem) (axis : ℕ) : ℚ :=
  if axis = 0 then e.rect.x else e.rect.y

/-- `KDTree.intersects` (kdTree.ts lines 116-127): two rectangles intersect
unless one starts at or beyond the other's far edge (half-open logic). -/
def intersects (rect1 rect2 : Rect) : Bool :=
  !(decide (rect2.x ≥ rect1.x + rect1.width) ||
    decide (rect2.x + rect2.width ≤ rect1.x) ||
    decide (rect2.y ≥ rect1.y + rect1.height) ||
    decide (rect2.y + rect2.height ≤ rect1.y))

/-- `KDTree.contains` (kdTree.ts lines 129-131): point-in-rectangle test,
inclusive of both edges on both axes. -/
def contains (rect : Rect) (x y : ℚ) : Bool :=
  decide (x ≥ rect.x) && decide (x ≤ rect.x + rect.width) &&
  decide (y ≥ rect.y) && decide (y ≤ rect.y + rect.height)

/-- `KDNode | null` (kdTree.ts lines 3-10): a node stores its element, the
axis fixed at creation time, and optional left/right children; `nil`
models `null`. -/
inductive Tree where
  | nil : Tree
  | node (element : Elem) (axis : ℕ) (left right : Tree) : Tree
deriving DecidableEq

namespace Tree

/-- All elements stored in a tree (node first, then left, then right). -/
def elems : Tree → List Elem
  | .nil => []
  | .node el _ l r => el :: (l.elems ++ r.elems)

end Tree

/-- `KDTree.insertNode` (kdTree.ts lines 22-48): descend comparing the
element's coordinate on axis `depth % 2`; strictly smaller goes left,
ties and larger go right; a new leaf records `axis = depth % 2`. -/
def insertNode : Tree → Elem → ℕ → Tree
  | .nil, element, depth => .node element (depth % 2) .nil .nil
  | .node el ax l r, element, depth =>
    let axis := depth % 2
    let currentCoord := if axis = 0 then el.rect.x else el.rect.y
    let elementCoord := if axis = 0 then element.rect.x else element.rect.y
    if elementCoord < currentCoord then
      .node el ax (insertNode l element (depth + 1)) r
    else
      .node el ax l (insertNode r element (depth + 1))

/-- `KDTree.insert` (kdTree.ts lines 18-20). -/
def insert (t : Tree) (element : Elem) : Tree :=
  insertNode t element 0

/-- `KDTree.queryRangeNode` (kdTree.ts lines 57-97), faithfully including
both left-subtree recursions present in the source: the first guarded by
`queryMinCoord < nodeCoord` (lines 73-75) and the second by
`queryMinCoord <= nodeCoord` (lines 90-92); the right subtree is visited
when `queryMaxCoord >= nodeCoord` (lines 94-96).  Results are collected
in push order: current node, then each recursive call in textual order. -/
def queryRangeNode : Tree → Rect → List Elem
  | .nil, _ => []
  | .node el ax l r, queryRect =>
    let nodeCoord := if ax = 0 then el.rect.x else el.rect.y
    let queryMinCoord := if ax = 0 then queryRect.x else queryRect.y
    let queryMaxCoord :=
      if ax = 0 then queryRect.x + queryRect.width else queryRect.y + queryRect.height
    (if intersects el.rect queryRect then [el] else []) ++
      ((if queryMinCoord < nodeCoord then queryRangeNode l queryRect else []) ++
        ((if queryMinCoord ≤ nodeCoord then queryRangeNode l queryRect else []) ++
          (if queryMaxCoord ≥ nodeCoord then queryRangeNode r queryRect else [])))

/-- `KDTree.queryRange` (kdTree.ts lines 51-55). -/
def queryRange (t : Tree) (queryRect : Rect) : List Elem :=
  queryRangeNode t queryRect

/-- `KDTree.queryPoint` (kdTree.ts lines 100-113): run `queryRange` with a
1×1 rectangle anchored at the point, then filter by `contains`. -/
def queryPoint (t : Tree) (x y : ℚ) : List Elem :=
  let pointRect : Rect := ⟨x, y, 1, 1⟩
  (queryRange t pointRect).filter (fun el => contains el.rect x y)

/-- `KDTree.findMinNode` (kdTree.ts lines 193-241).  The source is only
called on non-null nodes and returns a node whose `element` is used, so the
embedding returns `none` exactly for `nil` (never reached from source call
sites) and otherwise the element of the node the source would return. -/
def findMinNode : Tree → ℕ → ℕ → Option Elem
  | .nil, _, _ => none
  | .node el _ l r, axisToMinimize, currentDepth =>
    let currentSplitAxis := currentDepth % 2
    if currentSplitAxis = axisToMinimize then
      match findMinNode l axisToMinimize (currentDepth + 1) with
      | none => some el
      | some leftMin =>
        if coordOf leftMin axisToMinimize < coordOf el axisToMinimize then some leftMin
        else some el
    else
      let c1 := match findMinNode l axisToMinimize (currentDepth + 1) with
        | none => el
        | some leftSubtreeMin =>
          if coordOf leftSubtreeMin axisToMinimize < coordOf el axisToMinimize then
            leftSubtreeMin
          else el
      let c2 := match findMinNode r axisToMinimize (currentDepth + 1) with
        | none => c1
        | some rightSubtreeMin =>
          if coordOf rightSubtreeMin axisToMinimize < coordOf c1 axisToMinimize then
            rightSubtreeMin
          else c1
      some c2

/-- `KDTree.removeNode` (kdTree.ts lines 142-191): on id match, a node with
no right child is replaced by its left child, a node with no left child by
its right child, and otherwise by the minimum (on this node's axis) of its
right subtree, which is then recursively removed; on mismatch, descend by
coordinate comparison on axis `depth % 2` (ties go right). -/
def removeNode : Tree → Elem → ℕ → Tree
  | .nil, _, _ => .nil
  | .node el ax l r, elementToRemove, depth =>
    let axis := depth % 2
    if el.id = elementToRemove.id then
      match r with
      | .nil => l
      | _ =>
        match l with
        | .nil => r
        | _ =>
          match findMinNode r axis (depth + 1) with
          | none => .node el ax l r
          | some replacement =>
            .node replacement ax l (removeNode r replacement (depth + 1))
    else
      let nodeCoord := if axis = 0 then el.rect.x else el.rect.y
      let elementToRemoveCoord :=
        if axis = 0 then elementToRemove.rect.x else elementToRemove.rect.y
      if elementToRemoveCoord < nodeCoord then
        .node el ax (removeNode l elementToRemove (depth + 1)) r
      else
        .node el ax l (removeNode r elementToRemove (depth + 1))

/-- `KDTree.remove` (kdTree.ts lines 134-140); the null-id guard cannot fire
for the string ids of the embedding. -/
def remove (t : Tree) (element : Elem) : Tree :=
  removeNode t element 0

/-! ## Operation sequences on the spatial index

`Op` is one step of the index workload considered by the spec's *index
completeness* property: an insert of an item, or a remove naming an item
(the source's `remove` receives the whole `VirtualElement`, so a remove
carries the element as it was inserted). -/

/-- One insert or remove operation on the `KDTree`. -/
inductive Op where
  | ins (e : Elem) : Op
  | rem (e : Elem) : Op
deriving DecidableEq

/-- Run a sequence of operations against a tree. -/
def applyOps (t : Tree) : List Op → Tree
  | [] => t
  | .ins e :: rest => applyOps (insert t e) rest
  | .rem e :: rest => applyOps (remove t e) rest

/-- The ids inserted so far and not since removed ("currently tracked"),
threaded through an operation sequence. -/
def trackedAfter (acc : List String) : List Op → List String
  | [] => acc
  | .ins e :: rest => trackedAfter (acc ++ [e.id]) rest
  | .rem e :: rest => trackedAfter (acc.filter (fun i => decide (i ≠ e.id))) rest

/-- All ids ever inserted by an operation sequence. -/
def insertedIds : List Op → List String
  | [] => []
  | .ins e :: rest => e.id :: insertedIds rest
  | .rem _ :: rest => insertedIds rest

/-- A query rectangle that covers an element so generously that the
element intersects it and no pruning test on either axis can cut the
element's node off: the rectangle starts (weakly) before the element's
origin on both axes and its far edges lie strictly beyond the element's
origin and strictly within reach of the element's own far edges. -/
def Covers (q : Rect) (e : Elem) : Prop :=
  q.x ≤ e.rect.x ∧ q.y ≤ e.rect.y ∧
  e.rect.x < q.x + q.width ∧ e.rect.y < q.y + q.height ∧
  q.x < e.rect.x + e.rect.width ∧ q.y < e.rect.y + e.rect.height

/-! ## Scroll coordinate engine -/

/-- `Virtualboy.MAX_SCROLL_HEIGHT` and `Virtualboy.MAX_SCROLL_WIDTH`
(kdTree.ts lines 267-268); the two constants share the value 1,000,000. -/
def MAX_SCROLL_EXTENT : ℚ := 1000000

/-- The sizer extent set by `Virtualboy.updateSizer` (kdTree.ts lines
542-552): the total virtual extent capped at the maximum scroll extent. -/
def sizerExtent (totalVirtual : ℚ) : ℚ :=
  if totalVirtual > MAX_SCROLL_EXTENT then MAX_SCROLL_EXTENT else totalVirtual

/-- The vertical computation of `Virtualboy.handleScroll` (kdTree.ts lines
556-580), producing the new `virtualScrollTop` from the host scroll offset,
the viewport client extent, and the total virtual extent.  The horizontal
computation (lines 584-608) is the same function applied to
`scrollLeft` / `clientWidth` / `totalVirtualWidth`, and the recomputation at
the end of `Virtualboy.remeasure` (lines 842-880) repeats it verbatim. -/
def computeVirtualScroll (hostScroll clientExtent totalVirtual : ℚ) : ℚ :=
  let v :=
    if totalVirtual ≤ MAX_SCROLL_EXTENT then hostScroll
    else
      let maxScrollForSizer := MAX_SCROLL_EXTENT - clientExtent
      if maxScrollForSizer ≤ 0 then 0
      else
        let scrollPercentage :=
          if maxScrollForSizer > 0 then hostScroll / maxScrollForSizer else 0
        let clamped := max 0 (min 1 scrollPercentage)
        let maxVirtualScroll := totalVirtual - clientExtent
        clamped * (if maxVirtualScroll > 0 then maxVirtualScroll else 0)
  let v1 := max 0 v
  let maxPossibleVirtualScroll := totalVirtual - clientExtent
  min v1 (if maxPossibleVirtualScroll > 0 then maxPossibleVirtualScroll else 0)

/-- The scroll restoration performed by `Virtualboy.remeasure` for the
vertical axis (kdTree.ts lines 769-801): map the saved virtual offset back
to a host scroll offset against the (capped) sizer range, then clamp it to
the sizer's actual scrollable range.  Lines 805-835 repeat this for the
horizontal axis. -/
def restoreHostScroll (savedVirtualScroll clientExtent totalVirtual : ℚ) : ℚ :=
  let newParentScroll :=
    if totalVirtual ≤ MAX_SCROLL_EXTENT then savedVirtualScroll
    else
      let maxVirtualScroll := totalVirtual - clientExtent
      let scrollPercentage :=
        if maxVirtualScroll > 0 then savedVirtualScroll / maxVirtualScroll else 0
      let clamped := max 0 (min 1 scrollPercentage)
      let maxScrollForSizer := MAX_SCROLL_EXTENT - clientExtent
      clamped * (if maxScrollForSizer > 0 then maxScrollForSizer else 0)
  let n1 := max 0 newParentScroll
  let maxParentScroll := sizerExtent totalVirtual - clientExtent
  if maxParentScroll > 0 then min n1 maxParentScroll else 0

/-! ## Lifecycle manager -/

/-- The mutable per-item state the manager keeps in its `elements` map: the
virtual rectangle and the visibility flag (`VirtualElement.rect` /
`VirtualElement.isVisible`).  The host node and `originalDisplay` string do
not influence any verified property. -/
structure Item where
  rect : Rect
  isVisible : Bool
deriving DecidableEq

/-- Lookup in the insertion-ordered association list that models the
`Map<string, VirtualElement>`. -/
def lookupItem : List (String × Item) → String → Option Item
  | [], _ => none
  | p :: rest, k => if p.1 = k then some p.2 else lookupItem rest k

/-- `Map.set`: replace in place if the key exists, else append. -/
def setKey : List (String × Item) → String → Item → List (String × Item)
  | [], k, v => [(k, v)]
  | p :: rest, k, v => if p.1 = k then (k, v) :: rest else p :: setKey rest k v

/-- `Map.delete`: drop the entry with the given key. -/
def eraseKey : List (String × Item) → String → List (String × Item)
  | [], _ => []
  | p :: rest, k => if p.1 = k then eraseKey rest k else p :: eraseKey rest k

/-- The keys of the tracked-item map, in insertion order. -/
def mapKeys (m : List (String × Item)) : List String := m.map (·.1)

/-- Flip the visibility flag of every entry whose key occurs in `ids`. -/
def setVisibility (m : List (String × Item)) (ids : List String) (b : Bool) :
    List (String × Item) :=
  m.map (fun p => if p.1 ∈ ids then (p.1, { p.2 with isVisible := b }) else p)

/-- The manager state of a `Virtualboy` instance (kdTree.ts lines 266-357):
the tracked-item map, the spatial index, the virtual extents and scroll
offsets, the generated-id counter, and the set of currently visible ids.
Host-DOM-only state (sizer node, style juggling) is not represented. -/
structure VBState where
  elements : List (String × Item)
  tree : Tree
  totalVirtualHeight : ℚ
  totalVirtualWidth : ℚ
  virtualScrollTop : ℚ
  virtualScrollLeft : ℚ
  nextElementId : ℕ
  currentlyVisible : List String
deriving DecidableEq

/-- `Virtualboy.generateId` (kdTree.ts lines 359-361). -/
def genId (n : ℕ) : String := "virtual-element-" ++ toString n

/-- The state built by the constructor before any element is discovered
(kdTree.ts lines 333-342): empty map and tree, zero scroll offsets, zero
virtual height, virtual width seeded from the parent's client width. -/
def initState (parentClientWidth : ℚ) : VBState :=
  { elements := []
    tree := .nil
    totalVirtualHeight := 0
    totalVirtualWidth := parentClientWidth
    virtualScrollTop := 0
    virtualScrollLeft := 0
    nextElementId := 0
    currentlyVisible := [] }

/-- `Virtualboy.handleElementAdded` (kdTree.ts lines 413-496).  `eid` is the
host element's id attribute (`""` when absent) and `w`/`h` the dimensions
the measurement step reports.  A nonempty id already tracked is skipped;
otherwise the item is stacked at `x = 0, y = totalVirtualHeight`, the
extents grow, an id is generated when absent, and the item is recorded
hidden in both the map and the tree. -/
def handleElementAdded (st : VBState) (eid : String) (w h : ℚ) : VBState :=
  if eid ≠ "" ∧ (lookupItem st.elements eid).isSome then st
  else
    let virtualRect : Rect := ⟨0, st.totalVirtualHeight, w, h⟩
    let totalH := st.totalVirtualHeight + h
    let totalW := max st.totalVirtualWidth w
    let resolved :=
      if eid = "" then (genId st.nextElementId, st.nextElementId + 1)
      else (eid, st.nextElementId)
    { st with
      elements := setKey st.elements resolved.1 ⟨virtualRect, false⟩
      tree := insert st.tree ⟨resolved.1, virtualRect⟩
      totalVirtualHeight := totalH
      totalVirtualWidth := totalW
      nextElementId := resolved.2 }

/-- `Virtualboy.handleElementRemoved` (kdTree.ts lines 498-540) for a host
element whose id attribute is `eid`: if tracked, remove it from the tree
and the map, recompute both extents as maxima of far edges over the
remaining items, and drop it from the visible set when it was visible; an
untracked id only triggers the raw DOM removal. -/
def handleElementRemoved (st : VBState) (eid : String) : VBState :=
  if h : eid ≠ "" ∧ (lookupItem st.elements eid).isSome then
    let ve := (lookupItem st.elements eid).get h.2
    let elements' := eraseKey st.elements eid
    let totalH := (elements'.map (fun p => p.2.rect.y + p.2.rect.height)).foldl max 0
    let totalW := (elements'.map (fun p => p.2.rect.x + p.2.rect.width)).foldl max 0
    { st with
      tree := remove st.tree ⟨eid, ve.rect⟩
      elements := elements'
      totalVirtualHeight := totalH
      totalVirtualWidth := totalW
      currentlyVisible :=
        if ve.isVisible then st.currentlyVisible.filter (fun i => decide (i ≠ eid))
        else st.currentlyVisible }
  else st

/-- `Virtualboy.updateVisibleElements` (kdTree.ts lines 619-694).  Builds
the viewport rectangle from the virtual offsets and the client extents,
queries the tree, detaches ids that left the viewport (marking them
hidden), and attaches ids that entered it, positioning each at
`(rect.coord - virtualScrollCoord) + hostScrollCoord` (lines 665-666) and
finally marking them visible.  Returns the new state together with the
`(id, left, top)` styles applied to the newly attached elements. -/
def updateVisibleElements (st : VBState) (clientWidth clientHeight scrollLeft scrollTop : ℚ) :
    VBState × List (String × ℚ × ℚ) :=
  let viewportRect : Rect :=
    ⟨st.virtualScrollLeft, st.virtualScrollTop, clientWidth, clientHeight⟩
  let elementsInViewport := queryRange st.tree viewportRect
  let shouldBeVisibleIds := elementsInViewport.map (·.id)
  let toRemove := st.currentlyVisible.filter (fun i => decide (i ∉ shouldBeVisibleIds))
  let elements1 := setVisibility st.elements toRemove false
  let visible1 := st.currentlyVisible.filter (fun i => decide (i ∈ shouldBeVisibleIds))
  let addedElements := elementsInViewport.filter (fun ve => decide (ve.id ∉ visible1))
  let styled := addedElements.map (fun ve =>
    (ve.id, (ve.rect.x - st.virtualScrollLeft) + scrollLeft,
      (ve.rect.y - st.virtualScrollTop) + scrollTop))
  let ensureIds := (elementsInViewport.filter (fun ve => decide (ve.id ∈ visible1))).map (·.id)
  let elements2 := setVisibility elements1 ensureIds true
  let elements3 := setVisibility elements2 (addedElements.map (·.id)) true
  let visible2 := addedElements.foldl
    (fun s ve => if ve.id ∈ s then s else s ++ [ve.id]) visible1
  ({ st with elements := elements3, currentlyVisible := visible2 }, styled)

/-- The state change of `Virtualboy.handleScroll` (kdTree.ts lines 554-608),
excluding the frame-coalesced refresh it schedules. -/
def handleScrollState (st : VBState) (scrollTop scrollLeft clientWidth clientHeight : ℚ) :
    VBState :=
  { st with
    virtualScrollTop := computeVirtualScroll scrollTop clientHeight st.totalVirtualHeight
    virtualScrollLeft := computeVirtualScroll scrollLeft clientWidth st.totalVirtualWidth }

/-- Accumulator for the re-stacking loop of `Virtualboy.remeasure`. -/
structure RestackAcc where
  elements : List (String × Item)
  tree : Tree
  totalH : ℚ
  totalW : ℚ

/-- One iteration of the re-stacking loop (kdTree.ts lines 745-760): the
item is re-measured, re-positioned at `x = 0, y = running total`, the
running totals grow, and the item is re-inserted into the fresh tree. -/
def restackStep (measure : String → ℚ × ℚ) (acc : RestackAcc) (p : String × Item) :
    RestackAcc :=
  let dims := measure p.1
  let rect : Rect := ⟨0, acc.totalH, dims.1, dims.2⟩
  { elements := acc.elements ++ [(p.1, { p.2 with rect := rect })]
    tree := insert acc.tree ⟨p.1, rect⟩
    totalH := acc.totalH + dims.2
    totalW := max acc.totalW (0 + dims.1) }

/-- `Virtualboy.remeasure` (kdTree.ts lines 721-884): hide everything and
clear the visible set, rebuild the tree and the layout by re-measuring
every tracked item in map order, restore the host scroll offsets from the
saved virtual offsets, recompute the virtual offsets forward from the
restored host offsets, and run a visibility refresh.  `measure` gives the
re-measured dimensions per item id; returns the final state and the styles
applied by the refresh. -/
def remeasure (st : VBState) (measure : String → ℚ × ℚ) (clientWidth clientHeight : ℚ) :
    VBState × List (String × ℚ × ℚ) :=
  let savedVirtualScrollTop := st.virtualScrollTop
  let savedVirtualScrollLeft := st.virtualScrollLeft
  let elements0 := setVisibility st.elements st.currentlyVisible false
  let acc := elements0.foldl (restackStep measure) ⟨[], .nil, 0, clientWidth⟩
  let newParentScrollTop := restoreHostScroll savedVirtualScrollTop clientHeight acc.totalH
  let newParentScrollLeft := restoreHostScroll savedVirtualScrollLeft clientWidth acc.totalW
  let st1 : VBState :=
    { st with
      elements := acc.elements
      tree := acc.tree
      totalVirtualHeight := acc.totalH
      totalVirtualWidth := acc.totalW
      currentlyVisible := []
      virtualScrollTop := computeVirtualScroll newParentScrollTop clientHeight acc.totalH
      virtualScrollLeft := computeVirtualScroll newParentScrollLeft clientWidth acc.totalW }
  updateVisibleElements st1 clientWidth clientHeight newParentScrollLeft newParentScrollTop

/-- `Virtualboy.destroy` (kdTree.ts lines 886-941): every visible item is
detached and marked hidden, the map and the tree are cleared, and the
engine state is reset (the total width to the parent's client width). -/
def destroyState (st : VBState) (parentClientWidth : ℚ) : VBState :=
  { st with
    elements := []
    tree := .nil
    virtualScrollTop := 0
    virtualScrollLeft := 0
    totalVirtualHeight := 0
    totalVirtualWidth := parentClientWidth
    currentlyVisible := [] }

/-- `Virtualboy.getVisibleElements` (kdTree.ts lines 697-707): walk the
visible-id set and collect the items that exist and are marked visible
(the source pushes the host node; the id identifies it). -/
def getVisibleElements (st : VBState) : List String :=
  st.currentlyVisible.filterMap (fun i =>
    match lookupItem st.elements i with
    | some ve => if ve.isVisible then some i else none
    | none => none)

/-! ## Frame-coalesced refresh scheduling

The tail of `Virtualboy.handleScroll` (kdTree.ts lines 610-616) defers the
visibility refresh through `requestAnimationFrame`, guarded by the
`updateQueued` flag (line 286).  The single-threaded event loop is embedded
as a state holding the flag, the number of queued frame callbacks, and the
number of refreshes executed so far. -/

/-- Scheduling state: the `updateQueued` flag, the callbacks currently
queued for the next animation frame, and the refreshes run so far. -/
structure FrameState where
  updateQueued : Bool
  pendingCallbacks : ℕ
  refreshCount : ℕ
deriving DecidableEq

/-- The scheduling step of one scroll event (kdTree.ts lines 610-616): when
no refresh is queued, set the flag and enqueue one frame callback;
otherwise do nothing. -/
def scrollSchedule (s : FrameState) : FrameState :=
  if s.updateQueued then s
  else { s with updateQueued := true, pendingCallbacks := s.pendingCallbacks + 1 }

/-- The next animation frame: every queued callback runs
`updateVisibleElements` and then clears `updateQueued` (lines 612-615). -/
def runFrame (s : FrameState) : FrameState :=
  { updateQueued := if s.pendingCallbacks > 0 then false else s.updateQueued
    pendingCallbacks := 0
    refreshCount := s.refreshCount + s.pendingCallbacks }

/-- `n` consecutive scroll events with no frame in between. -/
def scrollTimes : ℕ → FrameState → FrameState
  | 0, s => s
  | n + 1, s => scrollTimes n (scrollSchedule s)

/-! ## Structural invariants -/

/-- Invariant I2 of the spec (§3): at depth `d` a node's stored `axis` is
`d % 2` and every element of its left subtree has a strictly smaller
coordinate on that axis than the node's element. -/
def I2 : Tree → ℕ → Prop
  | .nil, _ => True
  | .node el ax l r, d =>
    ax = d % 2 ∧ (∀ e ∈ l.elems, coordOf e ax < coordOf el ax) ∧
      I2 l (d + 1) ∧ I2 r (d + 1)

/-- A tree built by inserting the given elements, in order, into an empty
tree. -/
def buildTree (es : List Elem) : Tree := es.foldl insert .nil

/-- A tree all of whose left children are `nil` (a right spine); the shape
the manager's vertical-stack layout produces. -/
def RightChain : Tree → Prop
  | .nil => True
  | .node _ _ l r => l = Tree.nil ∧ RightChain r

/-- The manager states reachable through the public lifecycle, under the
conditions the host environment guarantees in practice: measured
dimensions are non-negative (browser `offsetWidth`/`offsetHeight`), and a
generated id is never already a tracked key (callers do not hand out ids
of the form `virtual-element-<counter>`). -/
inductive Reach : VBState → Prop where
  | init (parentClientWidth : ℚ) : Reach (initState parentClientWidth)
  | addStep {st : VBState} (eid : String) (w h : ℚ) (hw : 0 ≤ w) (hh : 0 ≤ h)
      (hfresh : eid = "" → lookupItem st.elements (genId st.nextElementId) = none) :
      Reach st → Reach (handleElementAdded st eid w h)
  | removeStep {st : VBState} (eid : String) :
      Reach st → Reach (handleElementRemoved st eid)
  | scrollStep {st : VBState} (scrollTop scrollLeft clientWidth clientHeight : ℚ) :
      Reach st → Reach (handleScrollState st scrollTop scrollLeft clientWidth clientHeight)
  | refreshStep {st : VBState} (clientWidth clientHeight scrollLeft scrollTop : ℚ) :
      Reach st →
      Reach (updateVisibleElements st clientWidth clientHeight scrollLeft scrollTop).1
  | remeasureStep {st : VBState} (measure : String → ℚ × ℚ) (clientWidth clientHeight : ℚ)
      (hm : ∀ s, 0 ≤ (measure s).1 ∧ 0 ≤ (measure s).2) :
      Reach st → Reach (remeasure st measure clientWidth clientHeight).1
  | destroyStep {st : VBState} (parentClientWidth : ℚ) :
      Reach st → Reach (destroyState st parentClientWidth)

/-- The visibility bookkeeping invariant claimed for the manager: the
visible-id set holds exactly the tracked ids whose item is marked
visible. -/
def VisInvariant (st : VBState) : Prop :=
  ∀ i : String, i ∈ st.currentlyVisible ↔
    ∃ it : Item, lookupItem st.elements i = some it ∧ it.isVisible = true

/-- The tree-element view of the tracked-item map: each entry as the
`Elem` the spatial index holds for it. -/
def elemsOf (m : List (String × Item)) : List Elem :=
  m.map (fun p => Elem.mk p.1 p.2.rect)

/-- The structural facts the manager maintains across its lifecycle when
all measurements are non-negative: unique keys, the tree holding exactly
the map's elements in insertion order, the vertical-stack layout shape
(right-spine tree, `x = 0`, non-decreasing `y`), non-negative dimensions,
the total-height bound, and the visibility bookkeeping. -/
structure ManagerInv (st : VBState) : Prop where
  keysNodup : (mapKeys st.elements).Nodup
  treeElems : st.tree.elems = elemsOf st.elements
  chain : RightChain st.tree
  xzero : ∀ e ∈ elemsOf st.elements, e.rect.x = 0
  ymono : List.Pairwise (fun a b : Elem => a.rect.y ≤ b.rect.y) (elemsOf st.elements)
  dims : ∀ e ∈ elemsOf st.elements, 0 ≤ e.rect.width ∧ 0 ≤ e.rect.height
  bound : ∀ e ∈ elemsOf st.elements, e.rect.y + e.rect.height ≤ st.totalVirtualHeight
  vis : VisInvariant st

/-- The shape facts carried through the re-stacking loop of `remeasure`. -/
structure RestackOk (acc : RestackAcc) : Prop where
  treeElems : acc.tree.elems = elemsOf acc.elements
  chain : RightChain acc.tree
  xzero : ∀ e ∈ elemsOf acc.elements, e.rect.x = 0
  ymono : List.Pairwise (fun a b : Elem => a.rect.y ≤ b.rect.y) (elemsOf acc.elements)
  dims : ∀ e ∈ elemsOf acc.elements, 0 ≤ e.rect.width ∧ 0 ≤ e.rect.height
  bound : ∀ e ∈ elemsOf acc.elements, e.rect.y + e.rect.height ≤ acc.totalH
  hidden : ∀ p ∈ acc.elements, p.2.isVisible = false

/-! # Lemmas about the spatial index -/

theorem mem_insertNode {x e : Elem} : ∀ {t : Tree} {d : ℕ},
    x ∈ (insertNode t e d).elems ↔ x = e ∨ x ∈ t.elems := by
  intro t
  induction t with
  | nil => intro d; simp [insertNode, Tree.elems]
  | node el ax l r ihl ihr =>
    intro d
    simp only [insertNode]
    split_ifs <;> simp [Tree.elems, ihl, ihr] <;> tauto

theorem findMinNode_mem : ∀ {t : Tree} {a d : ℕ} {e : Elem},
    findMinNode t a d = some e → e ∈ t.elems := by
  intro t
  induction t with
  | nil => intro a d e h; simp [findMinNode] at h
  | node el ax l r ihl ihr =>
    intro a d e h
    simp only [findMinNode] at h
    simp only [Tree.elems, List.mem_cons, List.mem_append]
    repeat'
      first
      | (split at h)
      | (injection h with h; subst h)
      | split
    all_goals
      first
      | exact Or.inl rfl
      | exact Or.inr (Or.inl (ihl (by assumption)))
      | exact Or.inr (Or.inr (ihr (by assumption)))

theorem removeNode_subset : ∀ {t : Tree} {tgt : Elem} {d : ℕ} {x : Elem},
    x ∈ (removeNode t tgt d).elems → x ∈ t.elems := by
  intro t
  induction t with
  | nil => intro tgt d x h; simp [removeNode, Tree.elems] at h
  | node el ax l r ihl ihr =>
    intro tgt d x h
    simp only [removeNode] at h
    simp only [Tree.elems, List.mem_cons, List.mem_append]
    repeat' (split at h)
    all_goals try simp only [Tree.elems, List.mem_cons, List.mem_append] at h
    all_goals try rcases h with h | h | h
    all_goals
      first
      | exact Or.inl h
      | exact Or.inr (Or.inl h)
      | exact Or.inr (Or.inr h)
      | exact Or.inr (Or.inl (ihl h))
      | exact Or.inr (Or.inr (ihr h))
      | (subst h; exact Or.inr (Or.inr (findMinNode_mem (by assumption))))

theorem removeNode_keeps_id : ∀ {t : Tree} {tgt : Elem} {d : ℕ} {i : String},
    (∃ e ∈ t.elems, e.id = i) → i ≠ tgt.id →
    ∃ e ∈ (removeNode t tgt d).elems, e.id = i := by
  intro t
  induction t with
  | nil => intro tgt d i h _; simp [Tree.elems] at h
  | node el ax l r ihl ihr =>
    intro tgt d i h hne
    simp only [Tree.elems, List.mem_cons, List.mem_append] at h
    obtain ⟨e, he, rfl⟩ := h
    simp only [removeNode]
    repeat' split
    all_goals try simp only [Tree.elems, List.mem_cons, List.mem_append]
    all_goals rcases he with rfl | he | he
    all_goals try exact absurd (by assumption) hne
    all_goals try exact ⟨e, Or.inl rfl, rfl⟩
    all_goals try simp only [Tree.elems, List.not_mem_nil] at he
    all_goals
      first
      | exact ⟨e, Or.inr (Or.inl he), rfl⟩
      | exact ⟨e, Or.inr (Or.inr he), rfl⟩
      | exact ⟨e, he, rfl⟩
      | (obtain ⟨e2, he2, hid2⟩ := ihl (by exact ⟨e, he, rfl⟩) hne
         exact ⟨e2, Or.inr (Or.inl he2), hid2⟩)
      | (obtain ⟨e2, he2, hid2⟩ := ihr (by exact ⟨e, he, rfl⟩) hne
         exact ⟨e2, Or.inr (Or.inr he2), hid2⟩)
      | (rename_i rep heq
         by_cases hrep : rep.id = e.id
         · exact ⟨rep, Or.inl rfl, hrep⟩
         · obtain ⟨e2, he2, hid2⟩ := ihr (by exact ⟨e, he, rfl⟩)
             (fun hh => hrep hh.symm)
           exact ⟨e2, Or.inr (Or.inr he2), hid2⟩)

theorem mem_of_mem_ite_nil {α : Type} {c : Prop} [Decidable c] {L : List α} {x : α}
    (h : x ∈ if c then L else []) : x ∈ L := by
  split at h
  · exact h
  · simp at h

theorem queryRangeNode_subset : ∀ {t : Tree} {q : Rect} {x : Elem},
    x ∈ queryRangeNode t q → x ∈ t.elems := by
  intro t
  induction t with
  | nil => intro q x h; simp [queryRangeNode] at h
  | node el ax l r ihl ihr =>
    intro q x h
    simp only [queryRangeNode, List.mem_append] at h
    simp only [Tree.elems, List.mem_cons, List.mem_append]
    rcases h with h | h | h | h
    · have h2 := mem_of_mem_ite_nil h
      simp only [List.mem_singleton] at h2
      exact Or.inl h2
    · exact Or.inr (Or.inl (ihl (mem_of_mem_ite_nil h)))
    · exact Or.inr (Or.inl (ihl (mem_of_mem_ite_nil h)))
    · exact Or.inr (Or.inr (ihr (mem_of_mem_ite_nil h)))

theorem intersects_of_covers {q : Rect} {e : Elem} (h : Covers q e) :
    intersects e.rect q = true := by
  obtain ⟨h1, h2, h3, h4, h5, h6⟩ := h
  simp only [intersects, ge_iff_le, Bool.not_eq_true', Bool.or_eq_false_iff,
    decide_eq_false_iff_not, not_le]
  exact ⟨⟨⟨h5, h3⟩, h6⟩, h4⟩

theorem queryRangeNode_covering : ∀ {t : Tree} {q : Rect},
    (∀ e ∈ t.elems, Covers q e) →
    ∀ {x : Elem}, x ∈ queryRangeNode t q ↔ x ∈ t.elems := by
  intro t
  induction t with
  | nil => intro q _ x; simp [queryRangeNode, Tree.elems]
  | node el ax l r ihl ihr =>
    intro q hcov x
    have hel : Covers q el := hcov el (by simp [Tree.elems])
    have hl : ∀ e ∈ l.elems, Covers q e := fun e he =>
      hcov e (by simp [Tree.elems, he])
    have hr : ∀ e ∈ r.elems, Covers q e := fun e he =>
      hcov e (by simp [Tree.elems, he])
    obtain ⟨h1, h2, h3, h4, h5, h6⟩ := hel
    have hmin : (if ax = 0 then q.x else q.y) ≤
        (if ax = 0 then el.rect.x else el.rect.y) := by
      split
      · exact h1
      · exact h2
    have hmax : (if ax = 0 then q.x + q.width else q.y + q.height) ≥
        (if ax = 0 then el.rect.x else el.rect.y) := by
      split
      · exact le_of_lt h3
      · exact le_of_lt h4
    simp only [queryRangeNode, List.mem_append]
    rw [if_pos (intersects_of_covers ⟨h1, h2, h3, h4, h5, h6⟩),
      if_pos hmin, if_pos hmax]
    by_cases hlt : (if ax = 0 then q.x else q.y) < (if ax = 0 then el.rect.x else el.rect.y)
    · rw [if_pos hlt]
      simp only [Tree.elems, List.mem_cons, List.mem_append, List.mem_singleton,
        ihl hl, ihr hr]
      tauto
    · rw [if_neg hlt]
      simp only [Tree.elems, List.mem_cons, List.mem_append, List.mem_singleton,
        List.not_mem_nil, ihl hl, ihr hr]
      tauto

theorem applyOps_tracked : ∀ (ops : List Op) (t : Tree) (acc : List String),
    (∀ i ∈ acc, ∃ e ∈ t.elems, e.id = i) →
    ∀ i ∈ trackedAfter acc ops, ∃ e ∈ (applyOps t ops).elems, e.id = i := by
  intro ops
  induction ops with
  | nil => intro t acc hacc i hi; exact hacc i hi
  | cons op rest ih =>
    cases op with
    | ins e =>
      intro t acc hacc i hi
      simp only [trackedAfter] at hi
      simp only [applyOps]
      refine ih (insert t e) (acc ++ [e.id]) ?_ i hi
      intro j hj
      rcases List.mem_append.1 hj with hj | hj
      · obtain ⟨e2, he2, hid⟩ := hacc j hj
        exact ⟨e2, mem_insertNode.2 (Or.inr he2), hid⟩
      · simp only [List.mem_singleton] at hj
        subst hj
        exact ⟨e, mem_insertNode.2 (Or.inl rfl), rfl⟩
    | rem e =>
      intro t acc hacc i hi
      simp only [trackedAfter] at hi
      simp only [applyOps]
      refine ih (remove t e) (acc.filter (fun i => decide (i ≠ e.id))) ?_ i hi
      intro j hj
      rw [List.mem_filter] at hj
      obtain ⟨hj1, hj2⟩ := hj
      have hjne : j ≠ e.id := by simpa using hj2
      exact removeNode_keeps_id (hacc j hj1) hjne

theorem applyOps_ids_subset : ∀ (ops : List Op) (t : Tree) (x : Elem),
    x ∈ (applyOps t ops).elems → x ∈ t.elems ∨ x.id ∈ insertedIds ops := by
  intro ops
  induction ops with
  | nil => intro t x h; exact Or.inl h
  | cons op rest ih =>
    cases op with
    | ins e =>
      intro t x h
      rcases ih (insert t e) x h with h2 | h2
      · rcases mem_insertNode.1 h2 with rfl | h3
        · exact Or.inr (by simp [insertedIds])
        · exact Or.inl h3
      · exact Or.inr (by simp [insertedIds, h2])
    | rem e =>
      intro t x h
      rcases ih (remove t e) x h with h2 | h2
      · exact Or.inl (removeNode_subset h2)
      · exact Or.inr (by simpa [insertedIds] using h2)

/-! # Claim C1: index completeness -/

/-- C1, corrected.  The original claim — that a covering `queryRange`
returns exactly the set of ids inserted and not since removed — fails
(see the counterexample): `removeNode` can splice a subtree one level up
without re-establishing the axis discipline, after which a later remove can
descend the wrong way and silently miss its target.  What does hold, for
every finite sequence of inserts and removes and every query rectangle
covering all elements left in the tree: the returned id set *contains*
every id inserted and not since removed, and everything it returns was
inserted at some point (a removed id may erroneously persist). -/
theorem index_completeness_inclusions (ops : List Op) (q : Rect)
    (hcov : ∀ e ∈ (applyOps .nil ops).elems, Covers q e) :
    (∀ i ∈ trackedAfter [] ops, i ∈ (queryRange (applyOps .nil ops) q).map (·.id)) ∧
    (∀ i ∈ (queryRange (applyOps .nil ops) q).map (·.id), i ∈ insertedIds ops) := by
  constructor
  · intro i hi
    obtain ⟨e, he, hid⟩ := applyOps_tracked ops .nil [] (by simp) i hi
    exact List.mem_map.2 ⟨e, (queryRangeNode_covering hcov).2 he, hid⟩
  · intro i hi
    obtain ⟨e, he, hid⟩ := List.mem_map.1 hi
    rcases applyOps_ids_subset ops .nil e (queryRangeNode_subset he) with h | h
    · simp [Tree.elems] at h
    · exact hid ▸ h

/-- C1, counterexample to the claim as stated: insert `A (10,0)`,
`B (5,0)`, `C (4,1)`, then remove `A` and remove `C`.  Removing the root
`A` promotes `B`'s subtree (a y-split subtree) to the x-split root level;
the subsequent remove of `C` compares x-coordinates at the root
(`4 < 5` → left), but `C` sits in `B`'s right child, so it is never found.
A query rectangle covering every coordinate in play then returns id set
`{B, C}` while the tracked set is `{B}`: the id `"C"` is returned even
though it was removed. -/
theorem index_completeness_cex :
    "C" ∈ (queryRange
        (applyOps .nil
          [.ins ⟨"A", ⟨10, 0, 1, 1⟩⟩, .ins ⟨"B", ⟨5, 0, 1, 1⟩⟩, .ins ⟨"C", ⟨4, 1, 1, 1⟩⟩,
           .rem ⟨"A", ⟨10, 0, 1, 1⟩⟩, .rem ⟨"C", ⟨4, 1, 1, 1⟩⟩])
        ⟨-100, -100, 300, 300⟩).map (·.id) ∧
    "C" ∉ trackedAfter []
        [.ins ⟨"A", ⟨10, 0, 1, 1⟩⟩, .ins ⟨"B", ⟨5, 0, 1, 1⟩⟩, .ins ⟨"C", ⟨4, 1, 1, 1⟩⟩,
         .rem ⟨"A", ⟨10, 0, 1, 1⟩⟩, .rem ⟨"C", ⟨4, 1, 1, 1⟩⟩] ∧
    (∀ e ∈ (applyOps .nil
          [.ins ⟨"A", ⟨10, 0, 1, 1⟩⟩, .ins ⟨"B", ⟨5, 0, 1, 1⟩⟩, .ins ⟨"C", ⟨4, 1, 1, 1⟩⟩,
           .rem ⟨"A", ⟨10, 0, 1, 1⟩⟩, .rem ⟨"C", ⟨4, 1, 1, 1⟩⟩]).elems,
      Covers ⟨-100, -100, 300, 300⟩ e) := by
  refine ⟨?_, ?_, ?_⟩
  · norm_num [queryRange, queryRangeNode, applyOps, insert, insertNode, remove,
      removeNode, intersects, coordOf]
  · norm_num [trackedAfter]
  · intro e he
    have : e = Elem.mk "B" ⟨5, 0, 1, 1⟩ ∨ e = Elem.mk "C" ⟨4, 1, 1, 1⟩ := by
      revert he
      norm_num [applyOps, insert, insertNode, remove, removeNode, Tree.elems, coordOf]
    rcases this with rfl | rfl <;> norm_num [Covers]

/-- Witness for `index_completeness_inclusions` at a concrete input. -/
theorem index_completeness_witness :
    (∀ i ∈ trackedAfter [] [Op.ins ⟨"A", ⟨0, 0, 1, 1⟩⟩],
        i ∈ (queryRange (applyOps .nil [Op.ins ⟨"A", ⟨0, 0, 1, 1⟩⟩]) ⟨-1, -1, 3, 3⟩).map (·.id)) ∧
    (∀ i ∈ (queryRange (applyOps .nil [Op.ins ⟨"A", ⟨0, 0, 1, 1⟩⟩]) ⟨-1, -1, 3, 3⟩).map (·.id),
        i ∈ insertedIds [Op.ins ⟨"A", ⟨0, 0, 1, 1⟩⟩]) :=
  index_completeness_inclusions [Op.ins ⟨"A", ⟨0, 0, 1, 1⟩⟩] ⟨-1, -1, 3, 3⟩ (by
    intro e he
    have : e = Elem.mk "A" ⟨0, 0, 1, 1⟩ := by
      revert he
      norm_num [applyOps, insert, insertNode, Tree.elems]
    subst this
    norm_num [Covers])

/-! # Claim C2: no duplicates in queryRange results -/

/-- C2, failing evaluation.  `queryRangeNode` recurses into the left
subtree twice — once under `queryMinCoord < nodeCoord` (kdTree.ts lines
73-75) and again under `queryMinCoord <= nodeCoord` (lines 90-92, the
"corrected pruning logic" that was added without deleting the first
block) — so any matching element in a left subtree is reported twice.  On
the repository's own test fixture (kdTree.test.ts lines 61-79: el1, el2,
el3 inserted in order, query `{5,15,15,15}`) the result lists `el3` twice,
contradicting both the spec ("no duplicate items") and the test's expected
`['el1','el3']`. -/
theorem queryRange_duplicate_result :
    (queryRange
      (applyOps .nil
        [.ins ⟨"el1", ⟨10, 20, 10, 10⟩⟩, .ins ⟨"el2", ⟨30, 40, 10, 10⟩⟩,
         .ins ⟨"el3", ⟨15, 25, 10, 10⟩⟩])
      ⟨5, 15, 15, 15⟩).map (·.id) = ["el1", "el3", "el3"] := by
  norm_num [queryRange, queryRangeNode, applyOps, insert, insertNode, intersects, coordOf]

/-! # Claim C3: point containment -/

/-- C3, failing evaluation.  `queryPoint` filters `queryRange` results
with the inclusive `contains`, but `queryRange` itself uses the half-open
`intersects`: a point lying exactly on an item's right or bottom edge
satisfies `contains` yet the 1×1 point rectangle does not intersect the
item, so the item is never returned.  With the single item
`{x:10,y:20,w:10,h:10}` (the fixture of kdTree.test.ts lines 104-128) the
point `(20,30)` is inside the rectangle inclusive of both edges, the
repository's own test expects it to be found, and `queryPoint` returns
nothing. -/
theorem queryPoint_misses_inclusive_edge :
    queryPoint (insert .nil ⟨"el1", ⟨10, 20, 10, 10⟩⟩) 20 30 = [] ∧
    contains (Rect.mk 10 20 10 10) 20 30 = true := by
  constructor
  · norm_num [queryPoint, queryRange, queryRangeNode, insert, insertNode, intersects,
      contains]
  · norm_num [contains]

/-! # Claim C7: invariant I2 -/

theorem insertNode_I2 : ∀ {t : Tree} {e : Elem} {d : ℕ},
    I2 t d → I2 (insertNode t e d) d := by
  intro t
  induction t with
  | nil =>
    intro e d _
    simp [insertNode, I2, Tree.elems]
  | node el ax l r ihl ihr =>
    intro e d h
    obtain ⟨hax, hleft, hl, hr⟩ := h
    simp only [insertNode]
    split <;> rename_i hcond <;> split <;> rename_i hlt
    · refine ⟨hax, ?_, ihl hl, hr⟩
      intro x hx
      rcases mem_insertNode.1 hx with rfl | hx2
      · subst hax; simpa [coordOf, hcond] using hlt
      · exact hleft x hx2
    · exact ⟨hax, hleft, hl, ihr hr⟩
    · refine ⟨hax, ?_, ihl hl, hr⟩
      intro x hx
      rcases mem_insertNode.1 hx with rfl | hx2
      · subst hax; simpa [coordOf, hcond] using hlt
      · exact hleft x hx2
    · exact ⟨hax, hleft, hl, ihr hr⟩

/-- C7, corrected to insert-only reachability: every tree built by a
sequence of inserts into an empty tree satisfies invariant I2 — each
node's stored axis is its depth mod 2, and every element in a left subtree
is strictly smaller on that axis (ties having been routed right).  The
original claim over insert *and remove* sequences is refuted by
`axis_invariant_cex`. -/
theorem insert_only_I2 (es : List Elem) : I2 (buildTree es) 0 := by
  have h : ∀ (es2 : List Elem) (t : Tree), I2 t 0 → I2 (es2.foldl insert t) 0 := by
    intro es2
    induction es2 with
    | nil => intro t h; exact h
    | cons e rest ih => intro t h; exact ih _ (insertNode_I2 h)
  exact h es .nil trivial

/-- C7, counterexample to the claim as stated: insert `A (10,0)` and
`B (5,0)` (so `B` is `A`'s left child, a y-split node), then remove the
root `A`.  `removeNode`'s no-right-child case promotes `B` to the root
without updating its stored axis, so the root now carries `axis = 1` at
depth 0, violating `axis = depth mod 2`. -/
theorem axis_invariant_cex :
    ¬ I2 (applyOps .nil
      [.ins ⟨"A", ⟨10, 0, 1, 1⟩⟩, .ins ⟨"B", ⟨5, 0, 1, 1⟩⟩,
       .rem ⟨"A", ⟨10, 0, 1, 1⟩⟩]) 0 := by
  have h : applyOps .nil
      [.ins ⟨"A", ⟨10, 0, 1, 1⟩⟩, .ins ⟨"B", ⟨5, 0, 1, 1⟩⟩,
       .rem ⟨"A", ⟨10, 0, 1, 1⟩⟩] = .node ⟨"B", ⟨5, 0, 1, 1⟩⟩ 1 .nil .nil := by
    norm_num [applyOps, insert, insertNode, remove, removeNode]
  rw [h]
  simp [I2]

/-! # Claims C4 and C5: the scroll coordinate engine -/

theorem ite_pos_eq_max (a : ℚ) : (if a > 0 then a else 0) = max a 0 := by
  rcases le_or_lt a 0 with h | h
  · rw [if_neg (not_lt.2 h), max_eq_right h]
  · rw [if_pos h, max_eq_left h.le]

theorem computeVirtualScroll_bounds (h c t : ℚ) :
    0 ≤ computeVirtualScroll h c t ∧ computeVirtualScroll h c t ≤ max (t - c) 0 := by
  unfold computeVirtualScroll
  simp only [ite_pos_eq_max]
  exact ⟨le_min (le_max_left 0 _) (le_max_right _ 0), min_le_right _ _⟩

/-- C4 (confirmed): the scroll handler computes `virtualScrollTop` exactly
as specified — identity below the surface cap, percentage mapping above
it — followed by the final clamp into `[0, max(totalVirtual - viewport, 0)]`
that the claim's last clause describes, and the result always lies in that
interval.  The horizontal axis runs the identical code on
`scrollLeft`/`clientWidth`/`totalVirtualWidth` (kdTree.ts lines 584-608),
so the same statement covers it. -/
theorem handleScroll_virtual_offset (hostScroll clientExtent totalVirtual : ℚ)
    (hh : 0 ≤ hostScroll) (_hc : 0 ≤ clientExtent) (_ht : 0 ≤ totalVirtual) :
    computeVirtualScroll hostScroll clientExtent totalVirtual =
      min
        (if totalVirtual ≤ MAX_SCROLL_EXTENT then hostScroll
         else if MAX_SCROLL_EXTENT - clientExtent ≤ 0 then 0
         else max 0 (min 1 (hostScroll / (MAX_SCROLL_EXTENT - clientExtent))) *
           max (totalVirtual - clientExtent) 0)
        (max (totalVirtual - clientExtent) 0) ∧
    0 ≤ computeVirtualScroll hostScroll clientExtent totalVirtual ∧
    computeVirtualScroll hostScroll clientExtent totalVirtual ≤
      max (totalVirtual - clientExtent) 0 := by
  refine ⟨?_, computeVirtualScroll_bounds hostScroll clientExtent totalVirtual⟩
  unfold computeVirtualScroll
  simp only [ite_pos_eq_max]
  by_cases h1 : totalVirtual ≤ MAX_SCROLL_EXTENT
  · rw [if_pos h1, if_pos h1, max_eq_right hh]
  · rw [if_neg h1, if_neg h1]
    by_cases h2 : MAX_SCROLL_EXTENT - clientExtent ≤ 0
    · rw [if_pos h2, if_pos h2]
      norm_num
    · rw [if_neg h2, if_neg h2, if_pos (not_le.1 h2)]
      rw [max_eq_right (mul_nonneg (le_max_left 0 _) (le_max_right _ 0))]

/-- Witness for `handleScroll_virtual_offset`: the spec's *scroll identity*
example — total virtual height 5000, viewport 600, host offset 1000 maps
to virtual offset 1000. -/
theorem handleScroll_virtual_offset_witness :
    computeVirtualScroll 1000 600 5000 =
      min
        (if (5000 : ℚ) ≤ MAX_SCROLL_EXTENT then 1000
         else if MAX_SCROLL_EXTENT - 600 ≤ 0 then 0
         else max 0 (min 1 (1000 / (MAX_SCROLL_EXTENT - 600))) * max (5000 - 600) 0)
        (max ((5000 : ℚ) - 600) 0) ∧
    0 ≤ computeVirtualScroll 1000 600 5000 ∧
    computeVirtualScroll 1000 600 5000 ≤ max ((5000 : ℚ) - 600) 0 :=
  handleScroll_virtual_offset 1000 600 5000 (by norm_num) (by norm_num) (by norm_num)

/-- C5 (confirmed): if the total virtual extent is unchanged across a
remeasure and the saved virtual offset was produced from the host offset
by the forward mapping of `handleScroll`, then the host offset restored by
`remeasure` equals the original host offset exactly (rational arithmetic),
for any physically possible host offset, i.e. one within the sizer's
scrollable range.  The horizontal axis runs the identical code. -/
theorem remeasure_restores_host_scroll (hostScroll clientExtent totalVirtual : ℚ)
    (_hc : 0 ≤ clientExtent) (hh : 0 ≤ hostScroll)
    (hvalid : hostScroll ≤ max (sizerExtent totalVirtual - clientExtent) 0) :
    restoreHostScroll (computeVirtualScroll hostScroll clientExtent totalVirtual)
      clientExtent totalVirtual = hostScroll := by
  by_cases h1 : totalVirtual ≤ MAX_SCROLL_EXTENT
  · have hsizer : sizerExtent totalVirtual = totalVirtual := if_neg (not_lt.2 h1)
    rw [hsizer] at hvalid
    have hv : computeVirtualScroll hostScroll clientExtent totalVirtual = hostScroll := by
      unfold computeVirtualScroll
      simp only [ite_pos_eq_max]
      rw [if_pos h1, max_eq_right hh, min_eq_left hvalid]
    rw [hv]
    unfold restoreHostScroll
    simp only [if_pos h1, hsizer]
    rw [max_eq_right hh]
    rcases lt_or_le 0 (totalVirtual - clientExtent) with h3 | h3
    · rw [if_pos h3, min_eq_left (by rwa [max_eq_left h3.le] at hvalid)]
    · rw [if_neg (not_lt.2 h3)]
      have hle : hostScroll ≤ 0 := by rwa [max_eq_right h3] at hvalid
      linarith
  · have hsizer : sizerExtent totalVirtual = MAX_SCROLL_EXTENT :=
      if_pos (not_le.1 h1)
    rw [hsizer] at hvalid
    by_cases h2 : MAX_SCROLL_EXTENT - clientExtent ≤ 0
    · have hh0 : hostScroll = 0 :=
        le_antisymm (by rwa [max_eq_right h2] at hvalid) hh
      subst hh0
      have hv : computeVirtualScroll 0 clientExtent totalVirtual = 0 := by
        unfold computeVirtualScroll
        simp only [ite_pos_eq_max]
        rw [if_neg h1, if_pos h2]
        norm_num
      rw [hv]
      unfold restoreHostScroll
      rw [if_neg h1, hsizer, if_neg (not_lt.2 h2)]
    · have hsurf : 0 < MAX_SCROLL_EXTENT - clientExtent := not_le.1 h2
      have hvalid2 : hostScroll ≤ MAX_SCROLL_EXTENT - clientExtent := by
        rwa [max_eq_left hsurf.le] at hvalid
      have hmaxv : 0 < totalVirtual - clientExtent := by
        have := not_le.1 h1
        linarith [hsurf]
      have hpct0 : 0 ≤ hostScroll / (MAX_SCROLL_EXTENT - clientExtent) :=
        div_nonneg hh hsurf.le
      have hpct1 : hostScroll / (MAX_SCROLL_EXTENT - clientExtent) ≤ 1 :=
        (div_le_one hsurf).2 hvalid2
      have hv : computeVirtualScroll hostScroll clientExtent totalVirtual =
          hostScroll / (MAX_SCROLL_EXTENT - clientExtent) *
            (totalVirtual - clientExtent) := by
        unfold computeVirtualScroll
        simp only [ite_pos_eq_max]
        rw [if_neg h1, if_neg h2, if_pos hsurf, min_eq_right hpct1,
          max_eq_right hpct0, max_eq_left hmaxv.le]
        rw [max_eq_right (mul_nonneg hpct0 hmaxv.le)]
        exact min_eq_left (mul_le_of_le_one_left hmaxv.le hpct1)
      rw [hv]
      unfold restoreHostScroll
      simp only [if_neg h1, hsizer, if_pos hmaxv, if_pos hsurf]
      rw [mul_div_cancel_right₀ _ (ne_of_gt hmaxv), min_eq_right hpct1,
        max_eq_right hpct0, div_mul_cancel₀ _ (ne_of_gt hsurf), max_eq_right hh]
      exact min_eq_left hvalid2

/-- Witness for `remeasure_restores_host_scroll`: identity regime, host
offset 1000, viewport 600, total virtual height 5000. -/
theorem remeasure_restores_host_scroll_witness :
    restoreHostScroll (computeVirtualScroll 1000 600 5000) 600 5000 = 1000 :=
  remeasure_restores_host_scroll 1000 600 5000 (by norm_num) (by norm_num)
    (by norm_num [sizerExtent, MAX_SCROLL_EXTENT])

/-! # Claim C9: frame-coalesced refresh scheduling -/

theorem scrollSchedule_fixed {s : FrameState} (h : s.updateQueued = true) :
    scrollSchedule s = s := by
  simp [scrollSchedule, h]

/-- C9 (confirmed): any run of `n ≥ 1` scroll events before the next
animation frame schedules exactly one refresh callback — the first event
sets the `updateQueued` flag and enqueues the callback, every later event
is suppressed by the flag — and when the frame runs, exactly one refresh
executes and the flag is cleared only then. -/
theorem frame_coalescing (n k : ℕ) (hn : 1 ≤ n) :
    (scrollTimes n ⟨false, 0, k⟩).updateQueued = true ∧
    (scrollTimes n ⟨false, 0, k⟩).pendingCallbacks = 1 ∧
    runFrame (scrollTimes n ⟨false, 0, k⟩) = ⟨false, 0, k + 1⟩ := by
  have key : ∀ m : ℕ, scrollTimes m ⟨true, 1, k⟩ = ⟨true, 1, k⟩ := by
    intro m
    induction m with
    | zero => rfl
    | succ m ih =>
      show scrollTimes m (scrollSchedule ⟨true, 1, k⟩) = _
      rw [scrollSchedule_fixed rfl, ih]
  obtain ⟨m, rfl⟩ : ∃ m, n = m + 1 := ⟨n - 1, (Nat.succ_pred_eq_of_pos hn).symm⟩
  have h1 : scrollTimes (m + 1) ⟨false, 0, k⟩ = ⟨true, 1, k⟩ := by
    show scrollTimes m (scrollSchedule ⟨false, 0, k⟩) = _
    have h2 : scrollSchedule ⟨false, 0, k⟩ = ⟨true, 1, k⟩ := by
      simp [scrollSchedule]
    rw [h2, key m]
  rw [h1]
  exact ⟨rfl, rfl, by simp [runFrame]⟩

/-- Witness for `frame_coalescing`: three scroll events in one frame. -/
theorem frame_coalescing_witness :
    (scrollTimes 3 ⟨false, 0, 0⟩).updateQueued = true ∧
    (scrollTimes 3 ⟨false, 0, 0⟩).pendingCallbacks = 1 ∧
    runFrame (scrollTimes 3 ⟨false, 0, 0⟩) = ⟨false, 0, 0 + 1⟩ :=
  frame_coalescing 3 0 (by norm_num)

/-! # Claim C8: duplicate-id add is a no-op -/

/-- C8 (confirmed): adding a host element whose (nonempty) id is already a
key of the tracked-item map leaves the entire manager state — the map, the
spatial index, both virtual extents, the id counter and the visible set —
unchanged; the guard returns before any mutation (kdTree.ts lines
416-419), so no caller-visible failure can arise.  Tracked keys are never
the empty string (absent host ids are replaced by generated ids), so the
nonemptiness hypothesis covers every tracked id. -/
theorem duplicate_add_noop (st : VBState) (eid : String) (w h : ℚ)
    (hne : eid ≠ "") (hmem : (lookupItem st.elements eid).isSome = true) :
    handleElementAdded st eid w h = st := by
  unfold handleElementAdded
  rw [if_pos ⟨hne, hmem⟩]

/-- Witness for `duplicate_add_noop`: add an element with id `"a"` to a
fresh manager, then add another with the same id. -/
theorem duplicate_add_noop_witness :
    handleElementAdded (handleElementAdded (initState 0) "a" 5 5) "a" 3 3 =
      handleElementAdded (initState 0) "a" 5 5 :=
  duplicate_add_noop _ "a" 3 3 (by decide)
    (by decide)

/-! # Claim C6: rendered on-surface position -/

/-- C6 (confirmed): every `(id, left, top)` style applied by the
visibility refresh to an element entering visibility satisfies
`left = (rect.x - virtualScrollLeft) + hostScrollLeft` and
`top = (rect.y - virtualScrollTop) + hostScrollTop` (kdTree.ts lines
665-666), and the two concrete scenarios of the spec evaluate as stated:
virtual scroll `(top 200, left 30)`, host scroll `(0,0)`, rect
`{x:40,y:250}` renders at `left 10, top 50`; host scroll
`(top 20, left 10)`, virtual scroll `(top 100, left 50)`, rect
`{x:150,y:250}` renders at `left 110, top 170`. -/
theorem rendered_position_formula :
    (∀ (st : VBState) (cw ch sl stp : ℚ) (p : String × ℚ × ℚ),
      p ∈ (updateVisibleElements st cw ch sl stp).2 →
      ∃ ve : Elem,
        ve ∈ queryRange st.tree ⟨st.virtualScrollLeft, st.virtualScrollTop, cw, ch⟩ ∧
        p = (ve.id, (ve.rect.x - st.virtualScrollLeft) + sl,
          (ve.rect.y - st.virtualScrollTop) + stp)) ∧
    (updateVisibleElements
      ⟨[("a", ⟨⟨40, 250, 10, 10⟩, false⟩)], .node ⟨"a", ⟨40, 250, 10, 10⟩⟩ 0 .nil .nil,
        260, 50, 200, 30, 1, []⟩ 1000 1000 0 0).2 = [("a", 10, 50)] ∧
    (updateVisibleElements
      ⟨[("b", ⟨⟨150, 250, 10, 10⟩, false⟩)], .node ⟨"b", ⟨150, 250, 10, 10⟩⟩ 0 .nil .nil,
        260, 160, 100, 50, 1, []⟩ 1000 1000 10 20).2 = [("b", 110, 170)] := by
  refine ⟨?_, ?_, ?_⟩
  · intro st cw ch sl stp p hp
    simp only [updateVisibleElements] at hp
    obtain ⟨ve, hve, rfl⟩ := List.mem_map.1 hp
    exact ⟨ve, (List.mem_filter.1 hve).1, rfl⟩
  · norm_num [updateVisibleElements, queryRange, queryRangeNode, intersects,
      setVisibility, lookupItem]
  · norm_num [updateVisibleElements, queryRange, queryRangeNode, intersects,
      setVisibility, lookupItem]

/-- Witness for `rendered_position_formula` at the first spec scenario. -/
theorem rendered_position_formula_witness :
    ∃ ve : Elem,
      ve ∈ queryRange (Tree.node ⟨"a", ⟨40, 250, 10, 10⟩⟩ 0 .nil .nil) ⟨30, 200, 1000, 1000⟩ ∧
      (("a", (10 : ℚ), (50 : ℚ)) : String × ℚ × ℚ) =
        (ve.id, (ve.rect.x - 30) + 0, (ve.rect.y - 200) + 0) :=
  rendered_position_formula.1
    ⟨[("a", ⟨⟨40, 250, 10, 10⟩, false⟩)], .node ⟨"a", ⟨40, 250, 10, 10⟩⟩ 0 .nil .nil,
      260, 50, 200, 30, 1, []⟩ 1000 1000 0 0 ("a", 10, 50)
    (by norm_num [updateVisibleElements, queryRange, queryRangeNode, intersects,
      setVisibility, lookupItem])

/-! # Claim C10: the visibility-set invariant -/

/-- C10, counterexample to the claim as stated (all measured dimensions
admitted, including the negative ones §7(d) of the spec accepts).  Adding
items of heights 10, -4, -4, 1 produces a tree with genuine left
subtrees; removing `"b"` splices its left subtree one level up, after
which removing `"d"` descends the wrong way and leaves `"d"` in the tree
while it is deleted from the map.  The next visibility refresh then finds
the stale element, adds `"d"` to `currentlyVisibleElements`, and the set
no longer equals the set of tracked ids marked visible: `"d"` is in the
set but absent from the map. -/
theorem visibility_set_cex :
    "d" ∈ ((updateVisibleElements
      (handleElementRemoved
        (handleElementRemoved
          (handleElementAdded
            (handleElementAdded
              (handleElementAdded (handleElementAdded (initState 100) "a" 5 10) "b" 5 (-4))
              "c" 5 (-4))
            "d" 5 1)
          "b")
        "d")
      100 100 0 0).1).currentlyVisible ∧
    lookupItem ((updateVisibleElements
      (handleElementRemoved
        (handleElementRemoved
          (handleElementAdded
            (handleElementAdded
              (handleElementAdded (handleElementAdded (initState 100) "a" 5 10) "b" 5 (-4))
              "c" 5 (-4))
            "d" 5 1)
          "b")
        "d")
      100 100 0 0).1).elements "d" = none := by
  have h1 : handleElementAdded (initState 100) "a" 5 10 =
      ⟨[("a", ⟨⟨0, 0, 5, 10⟩, false⟩)], .node ⟨"a", ⟨0, 0, 5, 10⟩⟩ 0 .nil .nil,
        10, 100, 0, 0, 0, []⟩ := by
    norm_num [handleElementAdded, initState, setKey, lookupItem, insert, insertNode]
    all_goals decide
  have h2 : handleElementAdded
      ⟨[("a", ⟨⟨0, 0, 5, 10⟩, false⟩)], .node ⟨"a", ⟨0, 0, 5, 10⟩⟩ 0 .nil .nil,
        10, 100, 0, 0, 0, []⟩ "b" 5 (-4) =
      ⟨[("a", ⟨⟨0, 0, 5, 10⟩, false⟩), ("b", ⟨⟨0, 10, 5, -4⟩, false⟩)],
        .node ⟨"a", ⟨0, 0, 5, 10⟩⟩ 0 .nil (.node ⟨"b", ⟨0, 10, 5, -4⟩⟩ 1 .nil .nil),
        6, 100, 0, 0, 0, []⟩ := by
    norm_num [handleElementAdded, setKey, lookupItem, insert, insertNode]
    all_goals decide
  have h3 : handleElementAdded
      ⟨[("a", ⟨⟨0, 0, 5, 10⟩, false⟩), ("b", ⟨⟨0, 10, 5, -4⟩, false⟩)],
        .node ⟨"a", ⟨0, 0, 5, 10⟩⟩ 0 .nil (.node ⟨"b", ⟨0, 10, 5, -4⟩⟩ 1 .nil .nil),
        6, 100, 0, 0, 0, []⟩ "c" 5 (-4) =
      ⟨[("a", ⟨⟨0, 0, 5, 10⟩, false⟩), ("b", ⟨⟨0, 10, 5, -4⟩, false⟩),
        ("c", ⟨⟨0, 6, 5, -4⟩, false⟩)],
        .node ⟨"a", ⟨0, 0, 5, 10⟩⟩ 0 .nil
          (.node ⟨"b", ⟨0, 10, 5, -4⟩⟩ 1 (.node ⟨"c", ⟨0, 6, 5, -4⟩⟩ 0 .nil .nil) .nil),
        2, 100, 0, 0, 0, []⟩ := by
    norm_num [handleElementAdded, setKey, lookupItem, insert, insertNode]
    all_goals decide
  have h4 : handleElementAdded
      ⟨[("a", ⟨⟨0, 0, 5, 10⟩, false⟩), ("b", ⟨⟨0, 10, 5, -4⟩, false⟩),
        ("c", ⟨⟨0, 6, 5, -4⟩, false⟩)],
        .node ⟨"a", ⟨0, 0, 5, 10⟩⟩ 0 .nil
          (.node ⟨"b", ⟨0, 10, 5, -4⟩⟩ 1 (.node ⟨"c", ⟨0, 6, 5, -4⟩⟩ 0 .nil .nil) .nil),
        2, 100, 0, 0, 0, []⟩ "d" 5 1 =
      ⟨[("a", ⟨⟨0, 0, 5, 10⟩, false⟩), ("b", ⟨⟨0, 10, 5, -4⟩, false⟩),
        ("c", ⟨⟨0, 6, 5, -4⟩, false⟩), ("d", ⟨⟨0, 2, 5, 1⟩, false⟩)],
        .node ⟨"a", ⟨0, 0, 5, 10⟩⟩ 0 .nil
          (.node ⟨"b", ⟨0, 10, 5, -4⟩⟩ 1
            (.node ⟨"c", ⟨0, 6, 5, -4⟩⟩ 0 .nil (.node ⟨"d", ⟨0, 2, 5, 1⟩⟩ 1 .nil .nil)) .nil),
        3, 100, 0, 0, 0, []⟩ := by
    norm_num [handleElementAdded, setKey, lookupItem, insert, insertNode]
    all_goals decide
  have h5 : handleElementRemoved
      ⟨[("a", ⟨⟨0, 0, 5, 10⟩, false⟩), ("b", ⟨⟨0, 10, 5, -4⟩, false⟩),
        ("c", ⟨⟨0, 6, 5, -4⟩, false⟩), ("d", ⟨⟨0, 2, 5, 1⟩, false⟩)],
        .node ⟨"a", ⟨0, 0, 5, 10⟩⟩ 0 .nil
          (.node ⟨"b", ⟨0, 10, 5, -4⟩⟩ 1
            (.node ⟨"c", ⟨0, 6, 5, -4⟩⟩ 0 .nil (.node ⟨"d", ⟨0, 2, 5, 1⟩⟩ 1 .nil .nil)) .nil),
        3, 100, 0, 0, 0, []⟩ "b" =
      ⟨[("a", ⟨⟨0, 0, 5, 10⟩, false⟩), ("c", ⟨⟨0, 6, 5, -4⟩, false⟩),
        ("d", ⟨⟨0, 2, 5, 1⟩, false⟩)],
        .node ⟨"a", ⟨0, 0, 5, 10⟩⟩ 0 .nil
          (.node ⟨"c", ⟨0, 6, 5, -4⟩⟩ 0 .nil (.node ⟨"d", ⟨0, 2, 5, 1⟩⟩ 1 .nil .nil)),
        10, 5, 0, 0, 0, []⟩ := by
    have hab : ¬("a" : String) = "b" := by decide
    have hcb : ¬("c" : String) = "b" := by decide
    have hdb : ¬("d" : String) = "b" := by decide
    rw [handleElementRemoved]
    rw [dif_pos (by decide)]
    norm_num [eraseKey, lookupItem, remove, removeNode, findMinNode, coordOf,
      Option.get_some, hab, hcb, hdb]
  have h6 : handleElementRemoved
      ⟨[("a", ⟨⟨0, 0, 5, 10⟩, false⟩), ("c", ⟨⟨0, 6, 5, -4⟩, false⟩),
        ("d", ⟨⟨0, 2, 5, 1⟩, false⟩)],
        .node ⟨"a", ⟨0, 0, 5, 10⟩⟩ 0 .nil
          (.node ⟨"c", ⟨0, 6, 5, -4⟩⟩ 0 .nil (.node ⟨"d", ⟨0, 2, 5, 1⟩⟩ 1 .nil .nil)),
        10, 5, 0, 0, 0, []⟩ "d" =
      ⟨[("a", ⟨⟨0, 0, 5, 10⟩, false⟩), ("c", ⟨⟨0, 6, 5, -4⟩, false⟩)],
        .node ⟨"a", ⟨0, 0, 5, 10⟩⟩ 0 .nil
          (.node ⟨"c", ⟨0, 6, 5, -4⟩⟩ 0 .nil (.node ⟨"d", ⟨0, 2, 5, 1⟩⟩ 1 .nil .nil)),
        10, 5, 0, 0, 0, []⟩ := by
    have had2 : ¬("a" : String) = "d" := by decide
    have hcd2 : ¬("c" : String) = "d" := by decide
    rw [handleElementRemoved]
    rw [dif_pos (by decide)]
    norm_num [eraseKey, lookupItem, remove, removeNode, findMinNode, coordOf,
      Option.get_some, had2, hcd2]
  have h7 : (updateVisibleElements
      ⟨[("a", ⟨⟨0, 0, 5, 10⟩, false⟩), ("c", ⟨⟨0, 6, 5, -4⟩, false⟩)],
        .node ⟨"a", ⟨0, 0, 5, 10⟩⟩ 0 .nil
          (.node ⟨"c", ⟨0, 6, 5, -4⟩⟩ 0 .nil (.node ⟨"d", ⟨0, 2, 5, 1⟩⟩ 1 .nil .nil)),
        10, 5, 0, 0, 0, []⟩ 100 100 0 0).1 =
      ⟨[("a", ⟨⟨0, 0, 5, 10⟩, true⟩), ("c", ⟨⟨0, 6, 5, -4⟩, true⟩)],
        .node ⟨"a", ⟨0, 0, 5, 10⟩⟩ 0 .nil
          (.node ⟨"c", ⟨0, 6, 5, -4⟩⟩ 0 .nil (.node ⟨"d", ⟨0, 2, 5, 1⟩⟩ 1 .nil .nil)),
        10, 5, 0, 0, 0, ["a", "c", "d"]⟩ := by
    have hca : ¬("c" : String) = "a" := by decide
    have hda : ¬("d" : String) = "a" := by decide
    have hdc : ¬("d" : String) = "c" := by decide
    have hac : ¬("a" : String) = "c" := by decide
    have had3 : ¬("a" : String) = "d" := by decide
    have hcd3 : ¬("c" : String) = "d" := by decide
    norm_num [updateVisibleElements, queryRange, queryRangeNode, intersects,
      setVisibility, lookupItem, hca, hda, hdc, hac, had3, hcd3]
  rw [h1, h2, h3, h4, h5, h6, h7]
  decide

/-! ## Association-list lemmas for the tracked-item map -/

theorem lookupItem_eq_none : ∀ {m : List (String × Item)} {k : String},
    lookupItem m k = none ↔ k ∉ mapKeys m := by
  intro m
  induction m with
  | nil => intro k; simp [lookupItem, mapKeys]
  | cons p rest ih =>
    intro k
    simp only [lookupItem, mapKeys, List.map_cons, List.mem_cons]
    split
    · rename_i hpk
      simp [hpk]
    · rename_i hpk
      rw [ih, mapKeys]
      push_neg
      constructor
      · intro h
        exact ⟨fun hh => hpk hh.symm, h⟩
      · intro h
        exact h.2

theorem lookupItem_isSome_of_mem_keys : ∀ {m : List (String × Item)} {k : String},
    k ∈ mapKeys m → ∃ it, lookupItem m k = some it := by
  intro m
  induction m with
  | nil => intro k h; simp [mapKeys] at h
  | cons p rest ih =>
    intro k h
    simp only [lookupItem]
    split
    · exact ⟨p.2, rfl⟩
    · rename_i hpk
      simp only [mapKeys, List.map_cons, List.mem_cons] at h
      rcases h with h | h
      · exact absurd h.symm hpk
      · exact ih h

theorem lookupItem_mem : ∀ {m : List (String × Item)} {k : String} {it : Item},
    lookupItem m k = some it → (k, it) ∈ m := by
  intro m
  induction m with
  | nil => intro k it h; simp [lookupItem] at h
  | cons p rest ih =>
    intro k it h
    simp only [lookupItem] at h
    split at h
    · rename_i hpk
      simp only [Option.some.injEq] at h
      subst h
      subst hpk
      exact List.mem_cons_self _ _
    · exact List.mem_cons_of_mem _ (ih h)

theorem setKey_of_fresh : ∀ {m : List (String × Item)} {k : String} (v : Item),
    k ∉ mapKeys m → setKey m k v = m ++ [(k, v)] := by
  intro m
  induction m with
  | nil => intro k v _; simp [setKey]
  | cons p rest ih =>
    intro k v h
    simp only [mapKeys, List.map_cons, List.mem_cons] at h
    push_neg at h
    simp only [setKey]
    rw [if_neg (fun hh : p.1 = k => h.1 hh.symm), ih v h.2]
    simp

theorem lookupItem_append_sing : ∀ {m : List (String × Item)} {k i : String} {v : Item},
    lookupItem (m ++ [(k, v)]) i =
      if (lookupItem m i).isSome then lookupItem m i
      else if k = i then some v else none := by
  intro m
  induction m with
  | nil => intro k i v; simp [lookupItem]
  | cons p rest ih =>
    intro k i v
    simp only [List.cons_append, lookupItem]
    split
    · simp
    · exact ih

theorem eraseKey_eq_filter : ∀ {m : List (String × Item)} {k : String},
    eraseKey m k = m.filter (fun p => decide (¬ p.1 = k)) := by
  intro m
  induction m with
  | nil => intro k; simp [eraseKey]
  | cons p rest ih =>
    intro k
    simp only [eraseKey, List.filter_cons]
    split
    · rename_i hpk
      simp [hpk, ih]
    · rename_i hpk
      simp [hpk, ih]

theorem lookupItem_eraseKey : ∀ {m : List (String × Item)} {k i : String},
    lookupItem (eraseKey m k) i = if i = k then none else lookupItem m i := by
  intro m
  induction m with
  | nil => intro k i; simp [eraseKey, lookupItem]
  | cons p rest ih =>
    intro k i
    simp only [eraseKey]
    split
    · rename_i hpk
      rw [ih]
      split
      · rfl
      · rename_i hik
        simp only [lookupItem]
        rw [if_neg (fun hh : p.1 = i => hik (hh.symm.trans hpk))]
    · rename_i hpk
      simp only [lookupItem]
      split
      · rename_i hpi
        rw [if_neg (fun hik : i = k => hpk (hpi.trans hik))]
      · exact ih

theorem map_eraseKey {β : Type} (f : String × Item → β) (g : β → String)
    (hfg : ∀ p, g (f p) = p.1) : ∀ {m : List (String × Item)} {k : String},
    (eraseKey m k).map f = (m.map f).filter (fun b => decide (¬ g b = k)) := by
  intro m
  induction m with
  | nil => intro k; rfl
  | cons p rest ih =>
    intro k
    simp only [eraseKey]
    split
    · rename_i hpk
      rw [ih, List.map_cons, List.filter_cons_of_neg (by simp [hfg, hpk])]
    · rename_i hpk
      rw [List.map_cons, ih, List.map_cons, List.filter_cons_of_pos (by simp [hfg, hpk])]

theorem mapKeys_eraseKey {m : List (String × Item)} {k : String} :
    mapKeys (eraseKey m k) = (mapKeys m).filter (fun i => decide (¬ i = k)) :=
  map_eraseKey (·.1) id (fun _ => rfl)

theorem elemsOf_eraseKey {m : List (String × Item)} {k : String} :
    elemsOf (eraseKey m k) = (elemsOf m).filter (fun e => decide (¬ e.id = k)) :=
  map_eraseKey (fun p => Elem.mk p.1 p.2.rect) (·.id) (fun _ => rfl)

theorem elemsOf_setVisibility (m : List (String × Item)) (ids : List String) (b : Bool) :
    elemsOf (setVisibility m ids b) = elemsOf m := by
  induction m with
  | nil => rfl
  | cons p rest ih =>
    rw [show setVisibility (p :: rest) ids b =
      (if p.1 ∈ ids then (p.1, { p.2 with isVisible := b }) else p) ::
        setVisibility rest ids b from rfl]
    rw [show ∀ (q : String × Item) (l : List (String × Item)),
      elemsOf (q :: l) = Elem.mk q.1 q.2.rect :: elemsOf l from fun q l => rfl]
    rw [ih]
    rw [show elemsOf (p :: rest) = Elem.mk p.1 p.2.rect :: elemsOf rest from rfl]
    congr 1
    split
    · rfl
    · rfl

theorem mapKeys_eq_elemsOf_ids (m : List (String × Item)) :
    mapKeys m = (elemsOf m).map (·.id) := by
  induction m with
  | nil => simp [mapKeys, elemsOf]
  | cons p rest ih => simp [mapKeys, elemsOf, ih]

theorem lookupItem_setVisibility : ∀ {m : List (String × Item)} {ids : List String}
    {b : Bool} {i : String},
    lookupItem (setVisibility m ids b) i =
      (lookupItem m i).map
        (fun it => if i ∈ ids then { it with isVisible := b } else it) := by
  intro m
  induction m with
  | nil => intro ids b i; simp [setVisibility, lookupItem]
  | cons p rest ih =>
    intro ids b i
    rw [show setVisibility (p :: rest) ids b =
      (if p.1 ∈ ids then (p.1, { p.2 with isVisible := b }) else p) ::
        setVisibility rest ids b from rfl]
    by_cases hpi : p.1 = i
    · subst hpi
      by_cases hmem : p.1 ∈ ids
      · rw [if_pos hmem]
        simp [lookupItem, hmem]
      · rw [if_neg hmem]
        simp [lookupItem, hmem]
    · split
      · simp only [lookupItem]
        rw [if_neg hpi, if_neg hpi, ih]
      · simp only [lookupItem]
        rw [if_neg hpi, if_neg hpi, ih]

/-! ## The right-spine shape of vertically stacked trees -/

theorem insertNode_chain_append : ∀ {t : Tree} {e : Elem} {d : ℕ},
    RightChain t → (∀ x ∈ t.elems, x.rect.x = 0) → e.rect.x = 0 →
    (∀ x ∈ t.elems, x.rect.y ≤ e.rect.y) →
    (insertNode t e d).elems = t.elems ++ [e] ∧ RightChain (insertNode t e d) := by
  intro t
  induction t with
  | nil =>
    intro e d _ _ _ _
    exact ⟨by simp [insertNode, Tree.elems], by simp [insertNode, RightChain]⟩
  | node el ax l r ihl ihr =>
    intro e d hc hx hex hy
    obtain ⟨hlnil, hcr⟩ := hc
    subst hlnil
    have hnotlt : ¬ ((if d % 2 = 0 then e.rect.x else e.rect.y) <
        (if d % 2 = 0 then el.rect.x else el.rect.y)) := by
      by_cases hax : d % 2 = 0
      · simp only [if_pos hax]
        rw [hex, hx el (by simp [Tree.elems])]
        exact lt_irrefl 0
      · simp only [if_neg hax]
        exact not_lt.2 (hy el (by simp [Tree.elems]))
    simp only [insertNode]
    rw [if_neg hnotlt]
    obtain ⟨ih1, ih2⟩ := @ihr e (d + 1) hcr (fun x hxm => hx x (by simp [Tree.elems, hxm]))
      hex (fun x hxm => hy x (by simp [Tree.elems, hxm]))
    constructor
    · simp [Tree.elems, ih1]
    · exact ⟨rfl, ih2⟩

theorem removeNode_chain_erase : ∀ {t : Tree} {tgt : Elem} {d : ℕ},
    RightChain t → (∀ x ∈ t.elems, x.rect.x = 0) →
    List.Pairwise (fun a b : Elem => a.rect.y ≤ b.rect.y) t.elems →
    ((t.elems.map (·.id)).Nodup) → tgt ∈ t.elems →
    (removeNode t tgt d).elems = t.elems.filter (fun x => decide (¬ x.id = tgt.id)) ∧
    RightChain (removeNode t tgt d) := by
  intro t
  induction t with
  | nil => intro tgt d _ _ _ _ htgt; simp [Tree.elems] at htgt
  | node el ax l r ihl ihr =>
    intro tgt d hc hx hy hnd htgt
    obtain ⟨hlnil, hcr⟩ := hc
    subst hlnil
    have helems : Tree.elems (Tree.node el ax Tree.nil r) = el :: r.elems := by
      simp [Tree.elems]
    rw [helems] at hx hy hnd htgt ⊢
    simp only [removeNode]
    by_cases hid : el.id = tgt.id
    · rw [if_pos hid]
      cases r with
      | nil =>
        refine ⟨?_, trivial⟩
        rw [List.filter_cons_of_neg (by simp [hid])]
        simp [Tree.elems]
      | node el2 ax2 l2 r2 =>
        refine ⟨?_, hcr⟩
        rw [List.filter_cons_of_neg (by simp [hid])]
        have hnotin : el.id ∉ (Tree.node el2 ax2 l2 r2).elems.map (·.id) :=
          (List.nodup_cons.1 (by simpa using hnd)).1
        rw [List.filter_eq_self.2]
        intro x hxm
        simp only [decide_eq_true_eq]
        intro hxid
        exact hnotin (List.mem_map.2 ⟨x, hxm, hxid.trans hid.symm⟩)
    · rw [if_neg hid]
      have htgt2 : tgt ∈ r.elems := by
        rcases List.mem_cons.1 htgt with h | h
        · exact absurd (by rw [h]) hid
        · exact h
      have hnotlt : ¬ ((if d % 2 = 0 then tgt.rect.x else tgt.rect.y) <
          (if d % 2 = 0 then el.rect.x else el.rect.y)) := by
        by_cases hax : d % 2 = 0
        · simp only [if_pos hax]
          rw [hx tgt (List.mem_cons_of_mem _ htgt2), hx el (List.mem_cons_self _ _)]
          exact lt_irrefl 0
        · simp only [if_neg hax]
          exact not_lt.2 ((List.pairwise_cons.1 hy).1 tgt htgt2)
      rw [if_neg hnotlt]
      obtain ⟨ih1, ih2⟩ := @ihr tgt (d + 1) hcr
        (fun x hxm => hx x (List.mem_cons_of_mem _ hxm))
        (List.pairwise_cons.1 hy).2 (by simpa using (List.nodup_cons.1 (by simpa using hnd)).2)
        htgt2
      constructor
      · rw [show Tree.elems (Tree.node el ax Tree.nil (removeNode r tgt (d + 1))) =
          el :: (removeNode r tgt (d + 1)).elems from by simp [Tree.elems]]
        rw [ih1, List.filter_cons_of_pos (by simp [hid])]
      · exact ⟨rfl, ih2⟩

/-! ## Preservation of the manager invariant -/

theorem managerInv_init (parentClientWidth : ℚ) : ManagerInv (initState parentClientWidth) := by
  refine ⟨?_, ?_, ?_, ?_, ?_, ?_, ?_, ?_⟩ <;>
    simp [initState, mapKeys, elemsOf, Tree.elems, RightChain, VisInvariant, lookupItem]

theorem managerInv_destroy {st : VBState} (_inv : ManagerInv st) (parentClientWidth : ℚ) :
    ManagerInv (destroyState st parentClientWidth) := by
  refine ⟨?_, ?_, ?_, ?_, ?_, ?_, ?_, ?_⟩ <;>
    simp [destroyState, mapKeys, elemsOf, Tree.elems, RightChain, VisInvariant, lookupItem]

theorem managerInv_scroll {st : VBState} (inv : ManagerInv st)
    (scrollTop scrollLeft clientWidth clientHeight : ℚ) :
    ManagerInv (handleScrollState st scrollTop scrollLeft clientWidth clientHeight) := by
  obtain ⟨h1, h2, h3, h4, h5, h6, h7, h8⟩ := inv
  exact ⟨h1, h2, h3, h4, h5, h6, h7, h8⟩

theorem managerInv_add_core {st : VBState} (inv : ManagerInv st) (nid : String) (w h : ℚ)
    (hw : 0 ≤ w) (hh : 0 ≤ h) (hfr : lookupItem st.elements nid = none) (nxt : ℕ) :
    ManagerInv
      { st with
        elements := setKey st.elements nid ⟨⟨0, st.totalVirtualHeight, w, h⟩, false⟩
        tree := insert st.tree ⟨nid, ⟨0, st.totalVirtualHeight, w, h⟩⟩
        totalVirtualHeight := st.totalVirtualHeight + h
        totalVirtualWidth := max st.totalVirtualWidth w
        nextElementId := nxt } := by
  have hks : nid ∉ mapKeys st.elements := lookupItem_eq_none.1 hfr
  have hset : setKey st.elements nid ⟨⟨0, st.totalVirtualHeight, w, h⟩, false⟩ =
      st.elements ++ [(nid, ⟨⟨0, st.totalVirtualHeight, w, h⟩, false⟩)] :=
    setKey_of_fresh _ hks
  have hyle : ∀ x ∈ st.tree.elems, x.rect.y ≤ st.totalVirtualHeight := by
    intro x hx
    rw [inv.treeElems] at hx
    have hb := inv.bound x hx
    have hd := (inv.dims x hx).2
    linarith
  obtain ⟨happ, hchain⟩ :=
    @insertNode_chain_append st.tree ⟨nid, ⟨0, st.totalVirtualHeight, w, h⟩⟩ 0 inv.chain
      (fun x hx => inv.xzero x (inv.treeElems ▸ hx)) rfl hyle
  have helems : elemsOf (st.elements ++
      [(nid, (⟨⟨0, st.totalVirtualHeight, w, h⟩, false⟩ : Item))]) =
      elemsOf st.elements ++ [Elem.mk nid ⟨0, st.totalVirtualHeight, w, h⟩] := by
    simp [elemsOf]
  refine ⟨?_, ?_, hchain, ?_, ?_, ?_, ?_, ?_⟩
  · show (mapKeys (setKey st.elements nid _)).Nodup
    rw [hset]
    have : mapKeys (st.elements ++
        [(nid, (⟨⟨0, st.totalVirtualHeight, w, h⟩, false⟩ : Item))]) =
        mapKeys st.elements ++ [nid] := by
      simp [mapKeys]
    rw [this, List.nodup_append]
    exact ⟨inv.keysNodup, List.nodup_singleton _, by simpa [List.disjoint_singleton] using hks⟩
  · show (insert st.tree _).elems = elemsOf (setKey st.elements nid _)
    rw [hset, helems, insert, happ, inv.treeElems]
  · show ∀ e ∈ elemsOf (setKey st.elements nid _), e.rect.x = 0
    rw [hset, helems]
    intro e he
    rcases List.mem_append.1 he with he | he
    · exact inv.xzero e he
    · simp only [List.mem_singleton] at he
      subst he
      rfl
  · show List.Pairwise _ (elemsOf (setKey st.elements nid _))
    rw [hset, helems]
    rw [List.pairwise_append]
    refine ⟨inv.ymono, List.pairwise_singleton _ _, ?_⟩
    intro a ha b hb
    simp only [List.mem_singleton] at hb
    subst hb
    exact hyle a (inv.treeElems ▸ ha)
  · show ∀ e ∈ elemsOf (setKey st.elements nid _), _
    rw [hset, helems]
    intro e he
    rcases List.mem_append.1 he with he | he
    · exact inv.dims e he
    · simp only [List.mem_singleton] at he
      subst he
      exact ⟨hw, hh⟩
  · show ∀ e ∈ elemsOf (setKey st.elements nid _),
      e.rect.y + e.rect.height ≤ st.totalVirtualHeight + h
    rw [hset, helems]
    intro e he
    rcases List.mem_append.1 he with he | he
    · have := inv.bound e he
      linarith
    · simp only [List.mem_singleton] at he
      subst he
      simp
  · show VisInvariant _
    intro i
    show i ∈ st.currentlyVisible ↔
      ∃ it, lookupItem (setKey st.elements nid _) i = some it ∧ it.isVisible = true
    rw [hset, lookupItem_append_sing]
    by_cases hsome : (lookupItem st.elements i).isSome = true
    · rw [if_pos hsome]
      exact inv.vis i
    · rw [if_neg hsome]
      constructor
      · intro hi
        obtain ⟨it, hl, _⟩ := (inv.vis i).1 hi
        rw [hl] at hsome
        simp at hsome
      · rintro ⟨it, hl, hv⟩
        split at hl
        · simp only [Option.some.injEq] at hl
          rw [← hl] at hv
          simp at hv
        · simp at hl

theorem managerInv_add {st : VBState} (inv : ManagerInv st) (eid : String) (w h : ℚ)
    (hw : 0 ≤ w) (hh : 0 ≤ h)
    (hfresh : eid = "" → lookupItem st.elements (genId st.nextElementId) = none) :
    ManagerInv (handleElementAdded st eid w h) := by
  unfold handleElementAdded
  split
  · exact inv
  · rename_i hguard
    by_cases heid : eid = ""
    · rw [if_pos heid]
      exact managerInv_add_core inv (genId st.nextElementId) w h hw hh (hfresh heid) _
    · rw [if_neg heid]
      have hnone : lookupItem st.elements eid = none := by
        by_contra hne
        exact hguard ⟨heid, Option.ne_none_iff_isSome.1 hne⟩
      exact managerInv_add_core inv eid w h hw hh hnone _

theorem foldl_max_init_le (l : List ℚ) : ∀ a : ℚ, a ≤ l.foldl max a := by
  induction l with
  | nil => intro a; exact le_refl a
  | cons x t ih => intro a; exact le_trans (le_max_left a x) (ih (max a x))

theorem le_foldl_max (l : List ℚ) : ∀ a x : ℚ, x ∈ l → x ≤ l.foldl max a := by
  induction l with
  | nil => intro a x hx; simp at hx
  | cons y t ih =>
    intro a x hx
    rcases List.mem_cons.1 hx with rfl | hx
    · exact le_trans (le_max_right a x) (foldl_max_init_le t (max a x))
    · exact ih (max a y) x hx

theorem managerInv_remove {st : VBState} (inv : ManagerInv st) (eid : String) :
    ManagerInv (handleElementRemoved st eid) := by
  unfold handleElementRemoved
  split
  case isFalse => exact inv
  case isTrue hcond =>
    have hve : lookupItem st.elements eid =
        some ((lookupItem st.elements eid).get hcond.2) := (Option.some_get hcond.2).symm
    have hmem : (eid, (lookupItem st.elements eid).get hcond.2) ∈ st.elements :=
      lookupItem_mem hve
    have htgt : Elem.mk eid ((lookupItem st.elements eid).get hcond.2).rect ∈
        st.tree.elems := by
      rw [inv.treeElems]
      exact List.mem_map.2 ⟨_, hmem, rfl⟩
    have hndtree : (st.tree.elems.map (·.id)).Nodup := by
      rw [inv.treeElems, ← mapKeys_eq_elemsOf_ids]
      exact inv.keysNodup
    obtain ⟨herase, hchain2⟩ :=
      @removeNode_chain_erase st.tree
        (Elem.mk eid ((lookupItem st.elements eid).get hcond.2).rect) 0 inv.chain
        (fun x hx => inv.xzero x (inv.treeElems ▸ hx)) (inv.treeElems ▸ inv.ymono)
        hndtree htgt
    refine ⟨?_, ?_, hchain2, ?_, ?_, ?_, ?_, ?_⟩
    · show (mapKeys (eraseKey st.elements eid)).Nodup
      rw [mapKeys_eraseKey]
      exact inv.keysNodup.filter _
    · show (remove st.tree _).elems = elemsOf (eraseKey st.elements eid)
      rw [remove, herase, inv.treeElems, elemsOf_eraseKey]
    · show ∀ e ∈ elemsOf (eraseKey st.elements eid), e.rect.x = 0
      rw [elemsOf_eraseKey]
      intro e he
      exact inv.xzero e (List.mem_filter.1 he).1
    · show List.Pairwise _ (elemsOf (eraseKey st.elements eid))
      rw [elemsOf_eraseKey]
      exact inv.ymono.filter _
    · show ∀ e ∈ elemsOf (eraseKey st.elements eid), _
      rw [elemsOf_eraseKey]
      intro e he
      exact inv.dims e (List.mem_filter.1 he).1
    · show ∀ e ∈ elemsOf (eraseKey st.elements eid), e.rect.y + e.rect.height ≤
        ((eraseKey st.elements eid).map (fun p => p.2.rect.y + p.2.rect.height)).foldl max 0
      intro e he
      obtain ⟨p, hp, rfl⟩ := List.mem_map.1 he
      exact le_foldl_max _ 0 _ (List.mem_map.2 ⟨p, hp, rfl⟩)
    · show VisInvariant _
      intro i
      show i ∈ (if ((lookupItem st.elements eid).get hcond.2).isVisible then
          st.currentlyVisible.filter (fun j => decide (j ≠ eid))
        else st.currentlyVisible) ↔
        ∃ it, lookupItem (eraseKey st.elements eid) i = some it ∧ it.isVisible = true
      rw [lookupItem_eraseKey]
      by_cases hieq : i = eid
      · subst hieq
        rw [if_pos rfl]
        constructor
        · intro hi
          split at hi
          · have := (List.mem_filter.1 hi).2
            simp at this
          · rename_i hvis
            obtain ⟨it, hl, hv⟩ := (inv.vis i).1 hi
            rw [hve] at hl
            simp only [Option.some.injEq] at hl
            rw [← hl] at hv
            exact absurd hv hvis
        · rintro ⟨it, hl, _⟩
          simp at hl
      · rw [if_neg hieq]
        have hmemiff : i ∈ (if ((lookupItem st.elements eid).get hcond.2).isVisible then
            st.currentlyVisible.filter (fun j => decide (j ≠ eid))
          else st.currentlyVisible) ↔ i ∈ st.currentlyVisible := by
          split
          · rw [List.mem_filter]
            simp [hieq]
          · exact Iff.rfl
        rw [hmemiff]
        exact inv.vis i

theorem mem_foldl_setAdd : ∀ (l : List Elem) (s : List String) (i : String),
    (i ∈ l.foldl (fun s ve => if ve.id ∈ s then s else s ++ [ve.id]) s) ↔
      i ∈ s ∨ i ∈ l.map (·.id) := by
  intro l
  induction l with
  | nil => intro s i; simp
  | cons ve t ih =>
    intro s i
    show i ∈ t.foldl _ (if ve.id ∈ s then s else s ++ [ve.id]) ↔ _
    rw [ih]
    have hstep : i ∈ (if ve.id ∈ s then s else s ++ [ve.id]) ↔ i ∈ s ∨ i = ve.id := by
      split
      · rename_i hmem
        constructor
        · exact Or.inl
        · rintro (hh | rfl)
          · exact hh
          · exact hmem
      · simp [List.mem_append]
    rw [hstep]
    simp only [List.map_cons, List.mem_cons]
    tauto

theorem vis_refresh_aux (m : List (String × Item)) (cur : List String) (Q : List Elem)
    (hQ : ∀ ve ∈ Q, ve.id ∈ mapKeys m)
    (hvis : ∀ i, i ∈ cur ↔ ∃ it, lookupItem m i = some it ∧ it.isVisible = true)
    (i : String) :
    (i ∈ (Q.filter (fun ve =>
          decide (ve.id ∉ cur.filter (fun j => decide (j ∈ Q.map (·.id)))))).foldl
        (fun s ve => if ve.id ∈ s then s else s ++ [ve.id])
        (cur.filter (fun j => decide (j ∈ Q.map (·.id))))) ↔
      ∃ it,
        lookupItem
          (setVisibility
            (setVisibility
              (setVisibility m (cur.filter (fun j => decide (j ∉ Q.map (·.id)))) false)
              ((Q.filter (fun ve =>
                decide (ve.id ∈ cur.filter (fun j => decide (j ∈ Q.map (·.id)))))).map
                (·.id)) true)
            ((Q.filter (fun ve =>
              decide (ve.id ∉ cur.filter (fun j => decide (j ∈ Q.map (·.id)))))).map
              (·.id)) true) i = some it ∧ it.isVisible = true := by
  rw [mem_foldl_setAdd, lookupItem_setVisibility, lookupItem_setVisibility,
    lookupItem_setVisibility]
  have hV : i ∈ cur.filter (fun j => decide (j ∈ Q.map (·.id))) ↔
      i ∈ cur ∧ i ∈ Q.map (·.id) := by
    rw [List.mem_filter]; simp
  have hT : i ∈ cur.filter (fun j => decide (j ∉ Q.map (·.id))) ↔
      i ∈ cur ∧ i ∉ Q.map (·.id) := by
    rw [List.mem_filter]; simp
  have hE : i ∈ (Q.filter (fun ve =>
      decide (ve.id ∈ cur.filter (fun j => decide (j ∈ Q.map (·.id)))))).map (·.id) ↔
      i ∈ cur.filter (fun j => decide (j ∈ Q.map (·.id))) := by
    constructor
    · intro hi
      obtain ⟨ve, hvef, hveid⟩ := List.mem_map.1 hi
      obtain ⟨hveQ, hvecond⟩ := List.mem_filter.1 hvef
      rw [decide_eq_true_eq] at hvecond
      exact hveid ▸ hvecond
    · intro hi
      obtain ⟨hic, hiq⟩ := hV.1 hi
      obtain ⟨ve, hveQ, hveid⟩ := List.mem_map.1 hiq
      refine List.mem_map.2 ⟨ve, List.mem_filter.2 ⟨hveQ, ?_⟩, hveid⟩
      rw [decide_eq_true_eq, hveid]
      exact hi
  have hA : i ∈ (Q.filter (fun ve =>
      decide (ve.id ∉ cur.filter (fun j => decide (j ∈ Q.map (·.id)))))).map (·.id) ↔
      (i ∈ Q.map (·.id) ∧ i ∉ cur.filter (fun j => decide (j ∈ Q.map (·.id)))) := by
    constructor
    · intro hi
      obtain ⟨ve, hvef, hveid⟩ := List.mem_map.1 hi
      obtain ⟨hveQ, hvecond⟩ := List.mem_filter.1 hvef
      rw [decide_eq_true_eq] at hvecond
      exact ⟨hveid ▸ List.mem_map.2 ⟨ve, hveQ, rfl⟩, hveid ▸ hvecond⟩
    · rintro ⟨hiq, hnv⟩
      obtain ⟨ve, hveQ, hveid⟩ := List.mem_map.1 hiq
      refine List.mem_map.2 ⟨ve, List.mem_filter.2 ⟨hveQ, ?_⟩, hveid⟩
      rw [decide_eq_true_eq, hveid]
      exact hnv
  rcases hmi : lookupItem m i with _ | it0
  · simp only [Option.map_none']
    constructor
    · rintro (hh | hh)
      · obtain ⟨hic, _⟩ := hV.1 hh
        obtain ⟨it, hl, _⟩ := (hvis i).1 hic
        rw [hmi] at hl
        exact Option.noConfusion hl
      · obtain ⟨hiq, _⟩ := hA.1 hh
        obtain ⟨ve, hveQ, hveid⟩ := List.mem_map.1 hiq
        have hkm := hQ ve hveQ
        rw [hveid] at hkm
        obtain ⟨it, hl⟩ := lookupItem_isSome_of_mem_keys hkm
        rw [hmi] at hl
        exact Option.noConfusion hl
    · rintro ⟨it, hl, _⟩
      exact Option.noConfusion hl
  · simp only [Option.map_some', Option.some.injEq, exists_eq_left']
    by_cases hadd : i ∈ (Q.filter (fun ve =>
        decide (ve.id ∉ cur.filter (fun j => decide (j ∈ Q.map (·.id)))))).map (·.id)
    · simp only [if_pos hadd]
      simp only [iff_true]
      exact Or.inr hadd
    · simp only [if_neg hadd]
      by_cases hens : i ∈ (Q.filter (fun ve =>
          decide (ve.id ∈ cur.filter (fun j => decide (j ∈ Q.map (·.id)))))).map (·.id)
      · simp only [if_pos hens]
        simp only [iff_true]
        exact Or.inl (hE.1 hens)
      · simp only [if_neg hens]
        by_cases htr : i ∈ cur.filter (fun j => decide (j ∉ Q.map (·.id)))
        · simp only [if_pos htr]
          simp only [Bool.false_eq_true, iff_false]
          rintro (hh | hh)
          · obtain ⟨_, hiq⟩ := hV.1 hh
            exact (hT.1 htr).2 hiq
          · exact hadd hh
        · simp only [if_neg htr]
          constructor
          · rintro (hh | hh)
            · obtain ⟨hic, _⟩ := hV.1 hh
              obtain ⟨it, hl, hv⟩ := (hvis i).1 hic
              rw [hmi] at hl
              simp only [Option.some.injEq] at hl
              rw [hl]
              exact hv
            · exact absurd hh hadd
          · intro hv
            have hic : i ∈ cur := (hvis i).2 ⟨it0, hmi, hv⟩
            by_cases hiq : i ∈ Q.map (·.id)
            · exact Or.inl (hV.2 ⟨hic, hiq⟩)
            · exact absurd (hT.2 ⟨hic, hiq⟩) htr

theorem managerInv_refresh {st : VBState} (inv : ManagerInv st) (cw ch sl stp : ℚ) :
    ManagerInv (updateVisibleElements st cw ch sl stp).1 := by
  have hQ : ∀ ve ∈ queryRange st.tree ⟨st.virtualScrollLeft, st.virtualScrollTop, cw, ch⟩,
      ve.id ∈ mapKeys st.elements := by
    intro ve hve
    have hm := queryRangeNode_subset hve
    rw [inv.treeElems] at hm
    rw [mapKeys_eq_elemsOf_ids]
    exact List.mem_map.2 ⟨ve, hm, rfl⟩
  have htree : (updateVisibleElements st cw ch sl stp).1.tree = st.tree := rfl
  have hth : (updateVisibleElements st cw ch sl stp).1.totalVirtualHeight =
      st.totalVirtualHeight := rfl
  have hE3 : (updateVisibleElements st cw ch sl stp).1.elements =
      setVisibility
        (setVisibility
          (setVisibility st.elements
            (st.currentlyVisible.filter (fun i =>
              decide (i ∉ (queryRange st.tree
                ⟨st.virtualScrollLeft, st.virtualScrollTop, cw, ch⟩).map (·.id)))) false)
          (((queryRange st.tree
              ⟨st.virtualScrollLeft, st.virtualScrollTop, cw, ch⟩).filter (fun ve =>
            decide (ve.id ∈ st.currentlyVisible.filter (fun i =>
              decide (i ∈ (queryRange st.tree
                ⟨st.virtualScrollLeft, st.virtualScrollTop, cw, ch⟩).map (·.id)))))).map
            (·.id)) true)
        (((queryRange st.tree
            ⟨st.virtualScrollLeft, st.virtualScrollTop, cw, ch⟩).filter (fun ve =>
          decide (ve.id ∉ st.currentlyVisible.filter (fun i =>
            decide (i ∈ (queryRange st.tree
              ⟨st.virtualScrollLeft, st.virtualScrollTop, cw, ch⟩).map (·.id)))))).map
          (·.id)) true := rfl
  have helems : elemsOf ((updateVisibleElements st cw ch sl stp).1.elements) =
      elemsOf st.elements := by
    rw [hE3, elemsOf_setVisibility, elemsOf_setVisibility, elemsOf_setVisibility]
  refine ⟨?_, ?_, ?_, ?_, ?_, ?_, ?_, ?_⟩
  · rw [mapKeys_eq_elemsOf_ids, helems, ← mapKeys_eq_elemsOf_ids]
    exact inv.keysNodup
  · rw [htree, helems]
    exact inv.treeElems
  · rw [htree]
    exact inv.chain
  · rw [helems]
    exact inv.xzero
  · rw [helems]
    exact inv.ymono
  · rw [helems]
    exact inv.dims
  · rw [helems, hth]
    exact inv.bound
  · intro i
    exact vis_refresh_aux st.elements st.currentlyVisible
      (queryRange st.tree ⟨st.virtualScrollLeft, st.virtualScrollTop, cw, ch⟩)
      hQ inv.vis i

theorem restack_step_ok (measure : String → ℚ × ℚ)
    (hm : ∀ s, 0 ≤ (measure s).1 ∧ 0 ≤ (measure s).2) (acc : RestackAcc)
    (p : String × Item) (hp : p.2.isVisible = false) (hacc : RestackOk acc) :
    RestackOk (restackStep measure acc p) ∧
    mapKeys (restackStep measure acc p).elements = mapKeys acc.elements ++ [p.1] := by
  have hyle : ∀ x ∈ acc.tree.elems, x.rect.y ≤ acc.totalH := by
    intro x hx
    rw [hacc.treeElems] at hx
    have hb := hacc.bound x hx
    have hd := (hacc.dims x hx).2
    linarith
  obtain ⟨happ, hchain⟩ :=
    @insertNode_chain_append acc.tree
      ⟨p.1, ⟨0, acc.totalH, (measure p.1).1, (measure p.1).2⟩⟩ 0 hacc.chain
      (fun x hx => hacc.xzero x (hacc.treeElems ▸ hx)) rfl hyle
  have helems : elemsOf (acc.elements ++
      [(p.1, { p.2 with rect := ⟨0, acc.totalH, (measure p.1).1, (measure p.1).2⟩ })]) =
      elemsOf acc.elements ++
        [Elem.mk p.1 ⟨0, acc.totalH, (measure p.1).1, (measure p.1).2⟩] := by
    simp [elemsOf]
  constructor
  · refine ⟨?_, hchain, ?_, ?_, ?_, ?_, ?_⟩
    · show (insert acc.tree _).elems = elemsOf (acc.elements ++ _)
      rw [helems, insert, happ, hacc.treeElems]
    · show ∀ e ∈ elemsOf (acc.elements ++ _), e.rect.x = 0
      rw [helems]
      intro e he
      rcases List.mem_append.1 he with he | he
      · exact hacc.xzero e he
      · simp only [List.mem_singleton] at he
        subst he
        rfl
    · show List.Pairwise _ (elemsOf (acc.elements ++ _))
      rw [helems, List.pairwise_append]
      refine ⟨hacc.ymono, List.pairwise_singleton _ _, ?_⟩
      intro a ha b hb
      simp only [List.mem_singleton] at hb
      subst hb
      exact hyle a (hacc.treeElems ▸ ha)
    · show ∀ e ∈ elemsOf (acc.elements ++ _), _
      rw [helems]
      intro e he
      rcases List.mem_append.1 he with he | he
      · exact hacc.dims e he
      · simp only [List.mem_singleton] at he
        subst he
        exact hm p.1
    · show ∀ e ∈ elemsOf (acc.elements ++ _),
        e.rect.y + e.rect.height ≤ acc.totalH + (measure p.1).2
      rw [helems]
      intro e he
      have hh := (hm p.1).2
      rcases List.mem_append.1 he with he | he
      · have := hacc.bound e he
        linarith
      · simp only [List.mem_singleton] at he
        subst he
        simp
    · show ∀ q ∈ acc.elements ++ _, q.2.isVisible = false
      intro q hq
      rcases List.mem_append.1 hq with hq | hq
      · exact hacc.hidden q hq
      · simp only [List.mem_singleton] at hq
        subst hq
        exact hp
  · show mapKeys (acc.elements ++ _) = _
    simp [mapKeys]

theorem restack_fold_ok (measure : String → ℚ × ℚ)
    (hm : ∀ s, 0 ≤ (measure s).1 ∧ 0 ≤ (measure s).2) :
    ∀ (l : List (String × Item)) (acc : RestackAcc),
    (∀ p ∈ l, p.2.isVisible = false) → RestackOk acc →
    RestackOk (l.foldl (restackStep measure) acc) ∧
    mapKeys (l.foldl (restackStep measure) acc).elements =
      mapKeys acc.elements ++ mapKeys l := by
  intro l
  induction l with
  | nil => intro acc _ hacc; exact ⟨hacc, by simp [mapKeys]⟩
  | cons p t ih =>
    intro acc hl hacc
    obtain ⟨hstep, hkeys⟩ :=
      restack_step_ok measure hm acc p (hl p (List.mem_cons_self _ _)) hacc
    obtain ⟨hfold, hkeys2⟩ := ih (restackStep measure acc p)
      (fun q hq => hl q (List.mem_cons_of_mem _ hq)) hstep
    refine ⟨hfold, ?_⟩
    show mapKeys (t.foldl (restackStep measure) (restackStep measure acc p)).elements = _
    rw [hkeys2, hkeys, mapKeys]
    simp [mapKeys]

theorem lookupItem_of_mem_nodup : ∀ {m : List (String × Item)} {k : String} {v : Item},
    (mapKeys m).Nodup → (k, v) ∈ m → lookupItem m k = some v := by
  intro m
  induction m with
  | nil => intro k v _ hm; simp at hm
  | cons p rest ih =>
    intro k v hnd hm
    have hcons : mapKeys (p :: rest) = p.1 :: mapKeys rest := rfl
    rw [hcons] at hnd
    have hnd2 := List.nodup_cons.1 hnd
    rcases List.mem_cons.1 hm with rfl | hm
    · simp [lookupItem]
    · have hk : k ∈ mapKeys rest := List.mem_map.2 ⟨(k, v), hm, rfl⟩
      have hpk : ¬ p.1 = k := fun hh => hnd2.1 (hh ▸ hk)
      simp only [lookupItem, if_neg hpk]
      exact ih hnd2.2 hm

theorem managerInv_remeasure {st : VBState} (inv : ManagerInv st)
    (measure : String → ℚ × ℚ) (cw ch : ℚ)
    (hm : ∀ s, 0 ≤ (measure s).1 ∧ 0 ≤ (measure s).2) :
    ManagerInv (remeasure st measure cw ch).1 := by
  have h0 : ∀ p ∈ setVisibility st.elements st.currentlyVisible false,
      p.2.isVisible = false := by
    intro p hp
    obtain ⟨q, hq, hpq⟩ := List.mem_map.1 hp
    by_cases hqv : q.1 ∈ st.currentlyVisible
    · rw [← hpq]
      simp [hqv]
    · have hlk : lookupItem st.elements q.1 = some q.2 :=
        lookupItem_of_mem_nodup inv.keysNodup (by
          rcases q with ⟨qk, qv⟩
          exact hq)
      have hnv : ¬ q.2.isVisible = true := fun hv => hqv ((inv.vis q.1).2 ⟨q.2, hlk, hv⟩)
      rw [← hpq]
      split
      · exact absurd (by assumption) hqv
      · exact Bool.not_eq_true _ ▸ hnv
  obtain ⟨hok, hkeys⟩ := restack_fold_ok measure hm
    (setVisibility st.elements st.currentlyVisible false) ⟨[], .nil, 0, cw⟩ h0
    ⟨rfl, trivial, by simp [elemsOf], by simp [elemsOf], by simp [elemsOf],
      by simp [elemsOf], by simp⟩
  have hkeys2 : mapKeys ((setVisibility st.elements st.currentlyVisible false).foldl
      (restackStep measure) ⟨[], Tree.nil, 0, cw⟩).elements = mapKeys st.elements := by
    rw [hkeys]
    rw [show mapKeys (⟨[], Tree.nil, 0, cw⟩ : RestackAcc).elements = [] from rfl]
    rw [List.nil_append, mapKeys_eq_elemsOf_ids, elemsOf_setVisibility,
      ← mapKeys_eq_elemsOf_ids]
  refine managerInv_refresh ?_ cw ch _ _
  refine ⟨?_, ?_, ?_, ?_, ?_, ?_, ?_, ?_⟩
  · show (mapKeys ((setVisibility st.elements st.currentlyVisible false).foldl
      (restackStep measure) ⟨[], Tree.nil, 0, cw⟩).elements).Nodup
    rw [hkeys2]
    exact inv.keysNodup
  · exact hok.treeElems
  · exact hok.chain
  · exact hok.xzero
  · exact hok.ymono
  · exact hok.dims
  · exact hok.bound
  · intro i
    show i ∈ ([] : List String) ↔
      ∃ it, lookupItem ((setVisibility st.elements st.currentlyVisible false).foldl
        (restackStep measure) ⟨[], Tree.nil, 0, cw⟩).elements i = some it ∧
        it.isVisible = true
    simp only [List.not_mem_nil, false_iff, not_exists, not_and]
    intro it hl hv
    have hmem := lookupItem_mem hl
    have hfalse := hok.hidden _ hmem
    rw [hfalse] at hv
    exact Bool.false_ne_true hv

/-- C10: after every operation on a reachable manager state,
`currentlyVisibleElements` holds exactly the tracked ids whose item is
flagged visible, and `getVisibleElements` reports exactly that id set —
provided element measurement always yields non-negative width and height
and caller-supplied ids never collide with later generated ids. -/
theorem visibility_set_invariant {st : VBState} (hr : Reach st) :
    VisInvariant st ∧
      ∀ i : String, i ∈ getVisibleElements st ↔
        ∃ it : Item, lookupItem st.elements i = some it ∧ it.isVisible = true := by
  have hinv : ManagerInv st := by
    induction hr with
    | init p => exact managerInv_init p
    | addStep eid w h hw hh hfresh _ ih => exact managerInv_add ih eid w h hw hh hfresh
    | removeStep eid _ ih => exact managerInv_remove ih eid
    | scrollStep a b c d _ ih => exact managerInv_scroll ih a b c d
    | refreshStep cw ch sl stp _ ih => exact managerInv_refresh ih cw ch sl stp
    | remeasureStep m cw ch hm _ ih => exact managerInv_remeasure ih m cw ch hm
    | destroyStep p _ ih => exact managerInv_destroy ih p
  refine ⟨hinv.vis, ?_⟩
  intro i
  constructor
  · intro hi
    obtain ⟨j, hj, hji⟩ := List.mem_filterMap.1 hi
    rcases hl : lookupItem st.elements j with _ | it
    · simp only [hl] at hji
      exact Option.noConfusion hji
    · simp only [hl] at hji
      split at hji
      · rename_i hvis
        have : j = i := by
          injection hji
        exact ⟨it, this ▸ hl, hvis⟩
      · exact absurd hji (by simp)
  · rintro ⟨it, hl, hv⟩
    have hcv : i ∈ st.currentlyVisible := (hinv.vis i).2 ⟨it, hl, hv⟩
    refine List.mem_filterMap.2 ⟨i, hcv, ?_⟩
    simp only [hl, hv, if_pos]

theorem visibility_set_invariant_witness :
    VisInvariant (initState 0) ∧
      ∀ i : String, i ∈ getVisibleElements (initState 0) ↔
        ∃ it : Item, lookupItem (initState 0).elements i = some it ∧ it.isVisible = true :=
  visibility_set_invariant (Reach.init 0)

end Virtualboy